import Mathlib

/-
Verification of the Theia virtual filesystem service core.

This development shallowly embeds the parts of the repository relevant to
the claims under examination:

  * the FileService of packages/filesystem (write queue, write validation,
    exists, mkdirp, move/copy engine, watch reference counting),
  * the RemoteFileSystemProvider of
    packages/filesystem/src/common/remote-file-system-provider.ts,
  * the FileResource of packages/filesystem/src/browser/file-resource.ts.

Conventions of the embedding:

  * JavaScript promises and the single-threaded cooperative scheduler are
    modelled either by direct sequential execution (where interleaving is
    irrelevant) or by explicit action traces (write queue, watch sessions).
  * Fallible operations return Except.
  * URIs are modelled as a scheme plus an absolute path given as a list of
    segments. The source compares URIs through toString; since toString is
    injective on (scheme, path) and lowercasing the rendered string
    lowercases the components, string equality is modelled as structural
    equality and lowercased string equality as componentwise lowercased
    equality.
  * Byte buffers are lists of natural numbers.
-/

namespace Theia

/-! ## Capability bitset

Bit values of FileSystemProviderCapabilities as fixed by the wire contract
(common/files.ts; the file itself is outside src, the values are the stable
integer assignments referenced by the specification). -/

def FileReadWriteCap : Nat := 2

def FileOpenReadWriteCloseCap : Nat := 4

def FileFolderCopyCap : Nat := 8

def FileReadStreamCap : Nat := 16

def PathCaseSensitiveCap : Nat := 1024

def ReadonlyCap : Nat := 2048

def TrashCap : Nat := 4096

/-- Test of a capability bit, as in `provider.capabilities & cap`. -/
def hasCap (caps cap : Nat) : Bool := caps &&& cap ≠ 0

/-! ## Claim C1: the write queue

FileService.writeQueues / ensureWriteQueue / toMapKey
(src/unnamed/part_000 lines 1268-1284). A promise chain is modelled
explicitly; `.then(task, task)` is `WQPromise.thenBoth prev task task`
where tasks carry numeric ids. -/

/-- Provider as seen by toMapKey: only the capability bitset matters. -/
structure WQProvider where
  capabilities : Nat

/-- FileService.toMapKey (lines 1280-1284): the URI string, lowercased when
the provider is not path-case-sensitive. -/
def toMapKey (provider : WQProvider) (resource : String) : String :=
  if hasCap provider.capabilities PathCaseSensitiveCap then resource
  else resource.toLower

/-- A JS promise chain as built by the write queue: either an already
settled promise (the `Promise.resolve()` seed, or a previous tail), or
`prev.then(onOk, onErr)` where both handlers are tasks with numeric ids. -/
inductive WQPromise where
  | settled (ok : Bool)
  | thenBoth (prev : WQPromise) (onOk : Nat) (onErr : Nat)

/-- Run a promise chain given the success outcome of every task id.
Returns the ids of the tasks that actually execute, in execution order
(each one starts only after the whole prefix chain has settled), together
with the fulfilment status of the final promise. -/
def runChain (outcome : Nat → Bool) : WQPromise → List Nat × Bool
  | .settled ok => ([], ok)
  | .thenBoth prev onOk onErr =>
      let r := runChain outcome prev
      let h := if r.2 then onOk else onErr
      (r.1 ++ [h], outcome h)

/-- The writeQueues map: queue key to tail promise. -/
def WriteQueues : Type := List (String × WQPromise)

/-- Map.get on writeQueues. -/
def wqFind (qs : WriteQueues) (k : String) : Option WQPromise :=
  match qs with
  | [] => none
  | (k2, p) :: rest => if k2 = k then some p else wqFind rest k

/-- Map.set on writeQueues (the new binding shadows any older one). -/
def wqSet (qs : WriteQueues) (k : String) (p : WQPromise) : WriteQueues :=
  (k, p) :: qs

/-- FileService.ensureWriteQueue (lines 1270-1278): chain the task after the
current tail with `.then(task, task)` and store the new tail. -/
def ensureWriteQueue (qs : WriteQueues) (provider : WQProvider)
    (resource : String) (task : Nat) : WriteQueues :=
  let queueKey := toMapKey provider resource
  let tail := (wqFind qs queueKey).getD (.settled true)
  wqSet qs queueKey (.thenBoth tail task task)

/-- One enqueue request: a provider, a resource URI string, a task id. -/
structure WQEnq where
  provider : WQProvider
  resource : String
  task : Nat

/-- Enqueue a sequence of write tasks. -/
def enqueueAll (qs : WriteQueues) (es : List WQEnq) : WriteQueues :=
  es.foldl (fun acc e => ensureWriteQueue acc e.provider e.resource e.task) qs

/-- The execution order of the tail promise stored under key `k`. -/
def queueRun (qs : WriteQueues) (outcome : Nat → Bool) (k : String) :
    List Nat :=
  (runChain outcome ((wqFind qs k).getD (.settled true))).1

theorem runChain_thenBoth_same (outcome : Nat → Bool) (p : WQPromise)
    (t : Nat) :
    (runChain outcome (.thenBoth p t t)).1 = (runChain outcome p).1 ++ [t] := by
  simp only [runChain]
  rcases runChain outcome p with ⟨l, ok⟩
  cases ok <;> simp

theorem queueRun_enqueue (qs : WriteQueues) (provider : WQProvider)
    (resource : String) (task : Nat) (outcome : Nat → Bool) (k : String) :
    queueRun (ensureWriteQueue qs provider resource task) outcome k =
      if toMapKey provider resource = k then queueRun qs outcome k ++ [task]
      else queueRun qs outcome k := by
  unfold ensureWriteQueue queueRun wqSet
  by_cases h : toMapKey provider resource = k
  · simp only [wqFind, h, if_pos rfl]
    exact runChain_thenBoth_same outcome _ task
  · simp only [wqFind, h, if_neg h]
    simp

theorem queueRun_enqueueAll (es : List WQEnq) (qs : WriteQueues)
    (outcome : Nat → Bool) (k : String) :
    queueRun (enqueueAll qs es) outcome k =
      queueRun qs outcome k ++
        (es.filter (fun e => toMapKey e.provider e.resource == k)).map
          (fun e => e.task) := by
  induction es generalizing qs with
  | nil => simp [enqueueAll]
  | cons e rest ih =>
      have hstep : enqueueAll qs (e :: rest) =
          enqueueAll (ensureWriteQueue qs e.provider e.resource e.task) rest := by
        simp [enqueueAll]
      rw [hstep, ih, queueRun_enqueue]
      by_cases h : toMapKey e.provider e.resource = k
      · simp [h, List.filter_cons, List.append_assoc]
      · simp [h, List.filter_cons]

/-- Claim C1: all write tasks enqueued under the same queueKey (the URI
string, lowercased when the provider lacks the PathCaseSensitive
capability) execute serially in FIFO enqueue order: the execution order of
the tail promise for key `k` is exactly the sequence of tasks whose
queueKey is `k`, and it is the same for every outcome assignment, so a
failed predecessor never prevents nor reorders the tasks after it. -/
theorem claim1_write_queue_fifo (es : List WQEnq) (outcome : Nat → Bool)
    (k : String) :
    queueRun (enqueueAll [] es) outcome k =
      (es.filter (fun e => toMapKey e.provider e.resource == k)).map
        (fun e => e.task) := by
  have h := queueRun_enqueueAll es [] outcome k
  simpa [queueRun, wqFind, runChain] using h

/-! ## Stat, error codes, etag -/

/-- FileType bit values (common/files.ts wire contract). -/
def FileTypeFile : Nat := 1

def FileTypeDirectory : Nat := 2

def FileTypeSymbolicLink : Nat := 64

/-- Provider stat record (Stat of common/files.ts). -/
structure MStat where
  type : Nat
  mtime : Nat
  ctime : Nat
  size : Nat
deriving DecidableEq, Repr

/-- FileSystemProviderErrorCode values relevant to the service. -/
inductive FsError where
  | FileNotFound
  | FileExists
  | FileNotADirectory
  | FileIsADirectory
  | NoPermissions
  | Unavailable
  | Unknown
deriving DecidableEq, Repr

/-- FileOperationResult discriminants. -/
inductive FileOperationResult where
  | FILE_IS_DIRECTORY
  | FILE_NOT_DIRECTORY
  | FILE_NOT_FOUND
  | FILE_NOT_MODIFIED_SINCE
  | FILE_MODIFIED_SINCE
  | FILE_MOVE_CONFLICT
  | FILE_READ_ONLY
  | FILE_PERMISSION_DENIED
  | FILE_TOO_LARGE
  | FILE_INVALID_PATH
  | FILE_EXCEEDS_MEMORY_LIMIT
  | FILE_OTHER_ERROR
deriving DecidableEq, Repr

/-- The sentinel that disables etag checks. -/
def ETAG_DISABLED : String := ""

/-- Modelled from the spec: the etag validator is derived as a hash of the
pair (mtime, size); the concrete hash lives in common/files.ts which is not
under src. The claims only compare etag values, so any injective rendering
of the pair is adequate; it is kept distinct from ETAG_DISABLED. -/
def etag (mtime size : Nat) : String :=
  toString mtime ++ "-" ++ toString size

/-! ## Claim C2: FileService.validateWriteFile

Lines 775-809 of src/unnamed/part_000, parameterized by the result of
`provider.stat(resource)` so that every possible stat outcome (missing
file, directory, any mtime and size) is covered. -/

/-- Caller-supplied write options (mtime and etag of WriteFileOptions);
`none` fields model absent or non-number / non-string values. -/
structure MWriteOptions where
  mtime : Option Nat := none
  etag : Option String := none
deriving DecidableEq, Repr

/-- FileService.validateWriteFile: an error FILE_IS_DIRECTORY when the stat
is a directory, an error FILE_MODIFIED_SINCE when the dirty-write check
trips, otherwise the stat (or none when the stat call failed, meaning the
file does not exist yet). -/
def validateWriteFile (statResult : Except FsError MStat)
    (options : Option MWriteOptions) :
    Except FileOperationResult (Option MStat) :=
  match statResult with
  | .error _ => .ok none
  | .ok stat =>
      if stat.type &&& FileTypeDirectory ≠ 0 then
        .error .FILE_IS_DIRECTORY
      else
        match options with
        | none => .ok (some stat)
        | some o =>
            match o.mtime, o.etag with
            | some m, some e =>
                if e ≠ ETAG_DISABLED ∧ m < stat.mtime ∧ e ≠ etag m stat.size then
                  .error .FILE_MODIFIED_SINCE
                else .ok (some stat)
            | _, _ => .ok (some stat)

/-- Claim C2, counterexample: when the target exists as a directory, all
four conditions of the claim hold (numeric mtime and string etag supplied,
etag not disabled, on-disk mtime strictly greater, etag differing from
etag(caller mtime, disk size)), yet the write precondition fails with
FILE_IS_DIRECTORY rather than FILE_MODIFIED_SINCE, so the claimed
equivalence is false at this input. -/
theorem claim2_counterexample :
    validateWriteFile (.ok ⟨FileTypeDirectory, 5, 0, 7⟩)
        (some ⟨some 1, some "x"⟩) ≠ .error .FILE_MODIFIED_SINCE ∧
      validateWriteFile (.ok ⟨FileTypeDirectory, 5, 0, 7⟩)
          (some ⟨some 1, some "x"⟩) = .error .FILE_IS_DIRECTORY ∧
      ("x" ≠ ETAG_DISABLED ∧ 1 < 5 ∧ "x" ≠ etag 1 7) := by
  have hval : validateWriteFile (.ok ⟨FileTypeDirectory, 5, 0, 7⟩)
      (some ⟨some 1, some "x"⟩) = .error .FILE_IS_DIRECTORY := rfl
  refine ⟨?_, hval, by decide⟩
  rw [hval]
  simp

/-- Claim C2 as amended: the write precondition fails with
FILE_MODIFIED_SINCE exactly when the on-disk stat succeeded and is not a
directory, the caller supplied both a numeric mtime and a string etag, the
etag is not ETAG_DISABLED, the on-disk mtime is strictly greater than the
caller mtime, and the caller etag differs from the etag computed from the
caller mtime paired with the on-disk size; in every other case the
dirty-write check does not trip (a directory fails with FILE_IS_DIRECTORY
first, and a failed stat is treated as a missing file and passes). -/
theorem claim2_modified_since_iff (statResult : Except FsError MStat)
    (options : Option MWriteOptions) :
    validateWriteFile statResult options = .error .FILE_MODIFIED_SINCE ↔
      ∃ stat o m e, statResult = .ok stat ∧ options = some o ∧
        o.mtime = some m ∧ o.etag = some e ∧
        stat.type &&& FileTypeDirectory = 0 ∧
        e ≠ ETAG_DISABLED ∧ m < stat.mtime ∧ e ≠ etag m stat.size := by
  constructor
  · intro h
    cases statResult with
    | error fe => simp [validateWriteFile] at h
    | ok stat =>
        by_cases hd : stat.type &&& FileTypeDirectory ≠ 0
        · simp [validateWriteFile, hd] at h
        · cases options with
          | none => simp [validateWriteFile, hd] at h
          | some o =>
              cases hm : o.mtime with
              | none => simp [validateWriteFile, hd, hm] at h
              | some m =>
                  cases he : o.etag with
                  | none => simp [validateWriteFile, hd, hm, he] at h
                  | some e =>
                      by_cases hc :
                          e ≠ ETAG_DISABLED ∧ m < stat.mtime ∧ e ≠ etag m stat.size
                      · exact ⟨stat, o, m, e, rfl, rfl, hm, he,
                          not_ne_iff.mp hd, hc.1, hc.2.1, hc.2.2⟩
                      · simp [validateWriteFile, hd, hm, he, hc] at h
  · rintro ⟨stat, o, m, e, hs, ho, hm, he, hd, h1, h2, h3⟩
    subst hs; subst ho
    obtain ⟨om, oe⟩ := o
    change om = some m at hm
    change oe = some e at he
    subst hm; subst he
    simp [validateWriteFile, hd, h1, h2, h3]

/-! ## Claim C10: FileService.exists

Lines 704-714 of src/unnamed/part_000. The function is parameterized by
whether a provider is registered for the scheme of the URI and by the
outcome of `provider.stat`, so that every kind of stat failure (not only
FileNotFound but also permission or transport errors) is covered. -/

/-- The ENOPRO failure of withProvider. -/
inductive NoProviderError where
  | ENOPRO
deriving DecidableEq, Repr

/-- FileService.exists: resolve the provider (ENOPRO when none is
registered), then try `provider.stat` and map any success to true and any
error to false. -/
def existsModel (providerRegistered : Bool)
    (statResult : Except FsError MStat) : Except NoProviderError Bool :=
  if providerRegistered then
    match statResult with
    | .ok _ => .ok true
    | .error _ => .ok false
  else .error .ENOPRO

/-- Claim C10: for a URI whose scheme has a registered provider, exists
never rejects because of a stat failure: it resolves to false for every
stat error (FileNotFound, permission, transport, unknown alike) and to
true exactly when stat returns a record, so the caller cannot distinguish
a missing file from a file whose stat failed for another reason. -/
theorem claim10_exists_never_rejects (statResult : Except FsError MStat) :
    (∃ b, existsModel true statResult = .ok b) ∧
      (∀ e, existsModel true (.error e) = .ok false) ∧
      (existsModel true statResult = .ok true ↔ ∃ s, statResult = .ok s) := by
  refine ⟨?_, fun e => rfl, ?_⟩
  · match statResult with
    | .ok s => exact ⟨true, rfl⟩
    | .error e => exact ⟨false, rfl⟩
  · constructor
    · intro h
      cases statResult with
      | ok s => exact ⟨s, rfl⟩
      | error e => simp [existsModel] at h
    · rintro ⟨s, hs⟩
      subst hs; rfl

/-! ## Claim C9: FileResource.readContents

packages/filesystem/src/browser/file-resource.ts lines 84-108,
parameterized by the behaviour of fileService.readFile as a function of
the etag option the resource passes to it. -/

/-- The part of a FileContent that FileResource uses: the metadata stored
as the version and the decoded text. -/
structure RFileContent where
  etag : String
  mtime : Nat
  size : Nat
  value : String
deriving DecidableEq, Repr

/-- ResourceError shapes thrown by readContents. -/
inductive ResourceError where
  | NotFound
  | Other (result : FileOperationResult)
deriving DecidableEq, Repr

/-- FileResource.readContents: read with the etag of the cached version;
on success store the new stat as the version and return the new content;
on FILE_NOT_MODIFIED_SINCE return the cached content (empty when there is
no cached version) and keep the version; on FILE_NOT_FOUND clear the
version and fail with NotFound; rethrow anything else. Returns the result
together with the new `_version` field. -/
def readContents
    (readFile : Option String → Except FileOperationResult RFileContent)
    (version : Option RFileContent) :
    Except ResourceError String × Option RFileContent :=
  match readFile (version.map (fun v => v.etag)) with
  | .ok stat => (.ok stat.value, some stat)
  | .error e =>
      if e = .FILE_NOT_MODIFIED_SINCE then
        (.ok ((version.map (fun v => v.value)).getD ""), version)
      else if e = .FILE_NOT_FOUND then
        (.error .NotFound, none)
      else
        (.error (.Other e), version)

/-- Claim C9: readContents reads via readFile with the cached version
etag; when that read fails with FILE_NOT_MODIFIED_SINCE it returns the
previously cached content and keeps the version; when it fails with
FILE_NOT_FOUND it clears the cached version and throws NotFound; on
success it stores the newly read stat as the current version and returns
the new content. -/
theorem claim9_read_contents
    (readFile : Option String → Except FileOperationResult RFileContent)
    (version : Option RFileContent) :
    (∀ stat, readFile (version.map (fun v => v.etag)) = .ok stat →
        readContents readFile version = (.ok stat.value, some stat)) ∧
      (∀ v, version = some v →
        readFile (version.map (fun w => w.etag)) =
            .error .FILE_NOT_MODIFIED_SINCE →
          readContents readFile version = (.ok v.value, some v)) ∧
      (readFile (version.map (fun v => v.etag)) = .error .FILE_NOT_FOUND →
        readContents readFile version = (.error .NotFound, none)) := by
  refine ⟨?_, ?_, ?_⟩
  · intro stat h
    unfold readContents
    rw [h]
  · intro v hv h
    unfold readContents
    rw [h]
    subst hv
    simp
  · intro h
    unfold readContents
    rw [h]
    simp

/-- Witness for claim C9 at concrete inputs: a readFile that succeeds with
a fixed record makes readContents return its value and store it as the
version. -/
theorem claim9_witness :
    (fun _ : Option String =>
        (.ok ⟨"1-5", 1, 5, "hello"⟩ :
          Except FileOperationResult RFileContent)) none = .ok ⟨"1-5", 1, 5, "hello"⟩ ∧
      readContents
          (fun _ => .ok ⟨"1-5", 1, 5, "hello"⟩) none =
        (.ok "hello", some ⟨"1-5", 1, 5, "hello"⟩) :=
  ⟨rfl,
    (claim9_read_contents (fun _ => .ok ⟨"1-5", 1, 5, "hello"⟩) none).1
      ⟨"1-5", 1, 5, "hello"⟩ rfl⟩

/-! ## Claim C6: RemoteFileSystemProvider watch state across reconnects

packages/filesystem/src/common/remote-file-system-provider.ts
lines 81-85 (watcherSequence and watchOptions), 178-188 (watch) and
190-194 (reconnect). -/

/-- Watch options as carried over the wire. -/
structure RWatchOptions where
  recursive : Bool
  excludes : List String
deriving DecidableEq, Repr

/-- A request sent to the RemoteFileSystemServer. -/
inductive ServerCall where
  | watchReq (watcher : Nat) (uri : String) (opts : RWatchOptions)
  | unwatchReq (watcher : Nat)
deriving DecidableEq, Repr

/-- Client-side state of RemoteFileSystemProvider: the watcher id counter,
the watchOptions map, and the requests sent to the server in order. -/
structure RemoteProviderState where
  watcherSequence : Nat
  watchOptions : List (Nat × String × RWatchOptions)
  calls : List ServerCall
deriving DecidableEq, Repr

/-- RemoteFileSystemProvider.watch (lines 178-188): allocate the next
watcher id and send the watch request to the server. Mirrors the source
faithfully: no entry is ever inserted into watchOptions. Returns the new
state and the watcher id held by the disposer. -/
def rfspWatch (s : RemoteProviderState) (uri : String)
    (opts : RWatchOptions) : RemoteProviderState × Nat :=
  let watcher := s.watcherSequence
  ({ s with
      watcherSequence := watcher + 1,
      calls := s.calls ++ [.watchReq watcher uri opts] }, watcher)

/-- The disposer returned by watch: delete the watcher from watchOptions
and send unwatch. -/
def rfspDisposeWatcher (s : RemoteProviderState) (watcher : Nat) :
    RemoteProviderState :=
  { s with
      watchOptions := s.watchOptions.filter (fun e => e.1 ≠ watcher),
      calls := s.calls ++ [.unwatchReq watcher] }

/-- RemoteFileSystemProvider.reconnect (lines 190-194): re-issue a watch
request for every entry recorded in watchOptions. -/
def rfspReconnect (s : RemoteProviderState) : RemoteProviderState :=
  { s with
      calls := s.calls ++
        (s.watchOptions.map (fun e => ServerCall.watchReq e.1 e.2.1 e.2.2)) }

/-- Claim C6 evaluated at the failing input: after a single
watch(file:///a) on a fresh provider followed by a reconnect, the only
request ever sent is the initial watch; the reconnect re-issues nothing,
because watch never records the watcher into watchOptions. In general the
watchOptions map of any reachable state stays empty, so no reconnect can
ever re-issue a watch. -/
theorem claim6_reconnect_resends_nothing :
    (rfspReconnect
        (rfspWatch ⟨0, [], []⟩ "file:///a" ⟨false, []⟩).1).calls =
      [.watchReq 0 "file:///a" ⟨false, []⟩] ∧
      (rfspReconnect
          (rfspWatch ⟨0, [], []⟩ "file:///a" ⟨false, []⟩).1).watchOptions = [] ∧
      ∀ s : RemoteProviderState, s.watchOptions = [] →
        ∀ uri opts, ((rfspWatch s uri opts).1).watchOptions = [] ∧
          (rfspReconnect s).calls = s.calls := by
  refine ⟨rfl, rfl, ?_⟩
  intro s hs uri opts
  constructor
  · simp [rfspWatch, hs]
  · simp [rfspReconnect, hs]

/-! ## URIs and the filesystem tree model

URIs carry a scheme and an absolute path given as segments. Providers
store a tree of directories and files; name lookup is case sensitive or
not depending on the PathCaseSensitive capability of the provider. -/

/-- Path segments of an absolute path; the root is the empty list. -/
abbrev Segs := List String

/-- Charwise lowercasing, the model of JS toLowerCase on path segments
(kept kernel-reducible, unlike String.toLower). -/
def lowerStr (s : String) : String := String.mk (s.data.map Char.toLower)

/-- Name normalization under a case-sensitivity flag. -/
def normSeg (cs : Bool) (s : String) : String := if cs then s else lowerStr s

/-- A URI: scheme plus absolute path segments. The source compares URIs
via toString, which is injective on this data, so string equality is
modelled as structural equality. -/
structure MUri where
  scheme : String
  segs : Segs
deriving DecidableEq, Repr

namespace MUri

/-- URI.parent. -/
def parent (u : MUri) : MUri := ⟨u.scheme, u.segs.dropLast⟩

/-- URI.resolve with a single name. -/
def resolve (u : MUri) (name : String) : MUri := ⟨u.scheme, u.segs ++ [name]⟩

/-- URI.path.isRoot. -/
def isRoot (u : MUri) : Bool := u.segs.isEmpty

/-- URI.path.base. -/
def base (u : MUri) : String := u.segs.getLastD ""

/-- The lowercased rendering used by toString().toLowerCase() comparisons:
lowercasing the rendered string lowercases scheme and segments. -/
def lower (u : MUri) : MUri := ⟨lowerStr u.scheme, u.segs.map lowerStr⟩

/-- URI.isEqualOrParent(other, caseSensitive): other is equal to this URI
or an ancestor of it. -/
def isEqualOrParent (u other : MUri) (cs : Bool) : Bool :=
  u.scheme == other.scheme &&
    (other.segs.map (normSeg cs)).isPrefixOf (u.segs.map (normSeg cs))

end MUri

/-- A provider store: a tree of files (byte content) and directories
(ordered list of named children). -/
inductive FsNode where
  | file (content : List Nat)
  | dir (children : List (String × FsNode))

/-- Lookup of the first child matching a name under the given case
sensitivity. -/
def findChild (cs : Bool) : List (String × FsNode) → String → Option FsNode
  | [], _ => none
  | (n, c) :: rest, name =>
      if normSeg cs n = normSeg cs name then some c else findChild cs rest name

/-- Replace the first child matching the name (keeping its stored name) or
append a new child. -/
def setChild (cs : Bool) : List (String × FsNode) → String → FsNode →
    List (String × FsNode)
  | [], name, node => [(name, node)]
  | (n, c) :: rest, name, node =>
      if normSeg cs n = normSeg cs name then (n, node) :: rest
      else (n, c) :: setChild cs rest name node

/-- Remove the first child matching the name. -/
def removeChild (cs : Bool) : List (String × FsNode) → String →
    List (String × FsNode)
  | [], _ => []
  | (n, c) :: rest, name =>
      if normSeg cs n = normSeg cs name then rest
      else (n, c) :: removeChild cs rest name

/-- Node lookup along a path. -/
def getNode (cs : Bool) : FsNode → Segs → Option FsNode
  | n, [] => some n
  | n, name :: rest =>
      match n with
      | .file _ => none
      | .dir ch =>
          match findChild cs ch name with
          | some c => getNode cs c rest
          | none => none

/-- Write a whole node at a path; every strict ancestor must already exist
as a directory (the final component is created or replaced). -/
def setNode (cs : Bool) : FsNode → Segs → FsNode → Option FsNode
  | _, [], nn => some nn
  | r, name :: rest, nn =>
      match r with
      | .file _ => none
      | .dir ch =>
          match rest with
          | [] => some (.dir (setChild cs ch name nn))
          | seg2 :: rest2 =>
              match findChild cs ch name with
              | some c =>
                  match setNode cs c (seg2 :: rest2) nn with
                  | some c2 => some (.dir (setChild cs ch name c2))
                  | none => none
              | none => none

/-- Remove the node at a path (the whole subtree). -/
def deleteNode (cs : Bool) : FsNode → Segs → Option FsNode
  | _, [] => none
  | r, name :: rest =>
      match r with
      | .file _ => none
      | .dir ch =>
          match rest with
          | [] =>
              match findChild cs ch name with
              | some _ => some (.dir (removeChild cs ch name))
              | none => none
          | seg2 :: rest2 =>
              match findChild cs ch name with
              | some c =>
                  match deleteNode cs c (seg2 :: rest2) with
                  | some c2 => some (.dir (setChild cs ch name c2))
                  | none => none
              | none => none

/-- Well-formedness of a store under a case-sensitivity flag: every
directory has pairwise distinct normalized child names. -/
inductive TreeWF (cs : Bool) : FsNode → Prop where
  | file (c : List Nat) : TreeWF cs (.file c)
  | dir (ch : List (String × FsNode))
      (hnames : (ch.map (fun e => normSeg cs e.1)).Nodup)
      (hch : ∀ e ∈ ch, TreeWF cs e.2) : TreeWF cs (.dir ch)

/-! ### Tree lemmas -/

theorem findChild_congr (cs : Bool) (ch : List (String × FsNode))
    (n1 n2 : String) (h : normSeg cs n1 = normSeg cs n2) :
    findChild cs ch n1 = findChild cs ch n2 := by
  induction ch with
  | nil => rfl
  | cons e rest ih =>
      obtain ⟨n, c⟩ := e
      simp only [findChild, h]
      exact if_congr Iff.rfl rfl ih

theorem findChild_none_iff (cs : Bool) (ch : List (String × FsNode))
    (name : String) :
    findChild cs ch name = none ↔
      normSeg cs name ∉ ch.map (fun e => normSeg cs e.1) := by
  induction ch with
  | nil => simp [findChild]
  | cons e rest ih =>
      obtain ⟨n, c⟩ := e
      by_cases h : normSeg cs n = normSeg cs name
      · simp [findChild, h]
      · simp only [findChild, if_neg h, ih, List.map_cons, List.mem_cons]
        constructor
        · intro hn hmem
          rcases hmem with hmem | hmem
          · exact h hmem.symm
          · exact hn hmem
        · intro hn hmem
          exact hn (Or.inr hmem)

theorem findChild_setChild (cs : Bool) (ch : List (String × FsNode))
    (nm nm2 : String) (x : FsNode) :
    findChild cs (setChild cs ch nm x) nm2 =
      if normSeg cs nm2 = normSeg cs nm then some x
      else findChild cs ch nm2 := by
  induction ch with
  | nil =>
      simp only [setChild, findChild]
      by_cases h : normSeg cs nm2 = normSeg cs nm
      · rw [if_pos h.symm, if_pos h]
      · rw [if_neg (fun hh => h hh.symm), if_neg h]
  | cons e rest ih =>
      obtain ⟨n, c⟩ := e
      by_cases h : normSeg cs n = normSeg cs nm
      · simp only [setChild, if_pos h, findChild]
        by_cases h2 : normSeg cs nm2 = normSeg cs nm
        · rw [if_pos (h.trans h2.symm), if_pos h2]
        · have hne : ¬ normSeg cs n = normSeg cs nm2 := fun hh =>
            h2 (hh.symm.trans h)
          rw [if_neg hne, if_neg h2]
          simp only [findChild, if_neg hne]
      · simp only [setChild, if_neg h, findChild]
        by_cases h3 : normSeg cs n = normSeg cs nm2
        · have hne : ¬ normSeg cs nm2 = normSeg cs nm := fun hh =>
            h (h3.trans hh)
          rw [if_pos h3, if_neg hne]
          simp only [findChild, if_pos h3]
        · rw [if_neg h3, ih]
          by_cases h2 : normSeg cs nm2 = normSeg cs nm
          · rw [if_pos h2, if_pos h2]
          · rw [if_neg h2, if_neg h2]
            simp only [findChild, if_neg h3]

theorem setChild_setChild (cs : Bool) (ch : List (String × FsNode))
    (nm : String) (x y : FsNode) :
    setChild cs (setChild cs ch nm x) nm y = setChild cs ch nm y := by
  induction ch with
  | nil => simp [setChild]
  | cons e rest ih =>
      obtain ⟨n, c⟩ := e
      by_cases h : normSeg cs n = normSeg cs nm
      · simp [setChild, h]
      · simp [setChild, h, ih]

theorem setChild_self (cs : Bool) (ch : List (String × FsNode))
    (nm : String) (v : FsNode) (h : findChild cs ch nm = some v) :
    setChild cs ch nm v = ch := by
  induction ch with
  | nil => simp [findChild] at h
  | cons e rest ih =>
      obtain ⟨n, c⟩ := e
      by_cases hn : normSeg cs n = normSeg cs nm
      · simp only [findChild, if_pos hn, Option.some.injEq] at h
        simp [setChild, hn, h]
      · simp only [findChild, if_neg hn] at h
        simp [setChild, hn, ih h]

theorem setChild_names_found (cs : Bool) (ch : List (String × FsNode))
    (nm : String) (x c0 : FsNode) (h : findChild cs ch nm = some c0) :
    (setChild cs ch nm x).map (fun e => e.1) = ch.map (fun e => e.1) := by
  induction ch with
  | nil => simp [findChild] at h
  | cons e rest ih =>
      obtain ⟨n, c⟩ := e
      by_cases hn : normSeg cs n = normSeg cs nm
      · simp [setChild, hn]
      · simp only [findChild, if_neg hn] at h
        simp [setChild, hn, ih h]

theorem setChild_missing (cs : Bool) (ch : List (String × FsNode))
    (nm : String) (x : FsNode) (h : findChild cs ch nm = none) :
    setChild cs ch nm x = ch ++ [(nm, x)] := by
  induction ch with
  | nil => simp [setChild]
  | cons e rest ih =>
      obtain ⟨n, c⟩ := e
      by_cases hn : normSeg cs n = normSeg cs nm
      · simp [findChild, hn] at h
      · simp only [findChild, if_neg hn] at h
        simp [setChild, hn, ih h]

theorem setChild_entries (cs : Bool) (ch : List (String × FsNode))
    (nm : String) (x : FsNode) :
    ∀ e ∈ setChild cs ch nm x, e ∈ ch ∨ e.2 = x := by
  induction ch with
  | nil =>
      intro e he
      simp only [setChild, List.mem_singleton] at he
      exact Or.inr (by rw [he])
  | cons hd rest ih =>
      obtain ⟨n, c⟩ := hd
      intro e he
      by_cases hn : normSeg cs n = normSeg cs nm
      · simp only [setChild, if_pos hn, List.mem_cons] at he
        rcases he with he | he
        · exact Or.inr (by rw [he])
        · exact Or.inl (List.mem_cons_of_mem _ he)
      · simp only [setChild, if_neg hn, List.mem_cons] at he
        rcases he with he | he
        · exact Or.inl (by rw [he]; exact List.mem_cons_self _ _)
        · rcases ih e he with h1 | h1
          · exact Or.inl (List.mem_cons_of_mem _ h1)
          · exact Or.inr h1

theorem removeChild_sublist (cs : Bool) (ch : List (String × FsNode))
    (nm : String) : (removeChild cs ch nm).Sublist ch := by
  induction ch with
  | nil => simp [removeChild]
  | cons e rest ih =>
      obtain ⟨n, c⟩ := e
      by_cases hn : normSeg cs n = normSeg cs nm
      · simp only [removeChild, if_pos hn]
        exact List.sublist_cons_self _ _
      · simp only [removeChild, if_neg hn]
        exact ih.cons₂ _

theorem findChild_removeChild_none (cs : Bool) (ch : List (String × FsNode))
    (nm : String) (h : (ch.map (fun e => normSeg cs e.1)).Nodup) :
    findChild cs (removeChild cs ch nm) nm = none := by
  induction ch with
  | nil => simp [removeChild, findChild]
  | cons e rest ih =>
      obtain ⟨n, c⟩ := e
      simp only [List.map_cons, List.nodup_cons] at h
      by_cases hn : normSeg cs n = normSeg cs nm
      · simp only [removeChild, if_pos hn]
        rw [findChild_none_iff]
        rw [hn] at h
        exact h.1
      · simp only [removeChild, if_neg hn, findChild, if_neg hn]
        exact ih h.2

theorem findChild_mem (cs : Bool) (ch : List (String × FsNode))
    (nm : String) (c : FsNode) (h : findChild cs ch nm = some c) :
    ∃ n, (n, c) ∈ ch := by
  induction ch with
  | nil => simp [findChild] at h
  | cons e rest ih =>
      obtain ⟨n, c2⟩ := e
      by_cases hn : normSeg cs n = normSeg cs nm
      · simp only [findChild, if_pos hn, Option.some.injEq] at h
        exact ⟨n, by rw [h]; exact List.mem_cons_self _ _⟩
      · simp only [findChild, if_neg hn] at h
        obtain ⟨n2, hmem⟩ := ih h
        exact ⟨n2, List.mem_cons_of_mem _ hmem⟩

/-- Child lookup one level below a node. -/
def childLookup (cs : Bool) (n : FsNode) (a : String) : Option FsNode :=
  match n with
  | .file _ => none
  | .dir ch => findChild cs ch a

theorem getNode_snoc (cs : Bool) (r : FsNode) (q : Segs) (a : String) :
    getNode cs r (q ++ [a]) =
      (getNode cs r q).bind (fun n => childLookup cs n a) := by
  induction q generalizing r with
  | nil =>
      cases r with
      | file c => simp [getNode, childLookup]
      | dir ch =>
          cases h : findChild cs ch a <;>
            simp [getNode, childLookup, h]
  | cons b q ih =>
      cases r with
      | file c => simp [getNode]
      | dir ch =>
          cases h : findChild cs ch b <;>
            simp [getNode, h, ih]

theorem getNode_app_dir (cs : Bool) (r : FsNode) (p q : Segs) (n : FsNode)
    (h : getNode cs r (p ++ q) = some n) (hq : q ≠ []) :
    ∃ ch, getNode cs r p = some (.dir ch) := by
  induction p generalizing r with
  | nil =>
      cases r with
      | file c =>
          match q, hq with
          | b :: rest, _ => simp [getNode] at h
      | dir ch => exact ⟨ch, rfl⟩
  | cons a p ih =>
      cases r with
      | file c => simp [getNode] at h
      | dir ch =>
          cases hf : findChild cs ch a with
          | none => simp [getNode, hf] at h
          | some c =>
              simp only [List.cons_append, getNode, hf] at h
              simp only [getNode, hf]
              exact ih _ h

theorem getNode_congr (cs : Bool) (r : FsNode) (q1 q2 : Segs)
    (h : q1.map (normSeg cs) = q2.map (normSeg cs)) :
    getNode cs r q1 = getNode cs r q2 := by
  induction q1 generalizing r q2 with
  | nil =>
      cases q2 with
      | nil => rfl
      | cons b q2 => simp at h
  | cons a q1 ih =>
      cases q2 with
      | nil => simp at h
      | cons b q2 =>
          simp only [List.map_cons, List.cons.injEq] at h
          cases r with
          | file c => rfl
          | dir ch =>
              simp only [getNode]
              rw [findChild_congr cs ch a b h.1]
              cases findChild cs ch b
              · rfl
              · exact ih _ _ h.2

theorem setNode_self (cs : Bool) (r : FsNode) (q : Segs) (v : FsNode)
    (h : getNode cs r q = some v) : setNode cs r q v = some r := by
  induction q generalizing r with
  | nil =>
      simp only [getNode, Option.some.injEq] at h
      simp only [setNode]
      rw [h]
  | cons a q ih =>
      cases r with
      | file c => simp [getNode] at h
      | dir ch =>
          cases hf : findChild cs ch a with
          | none => simp [getNode, hf] at h
          | some c =>
              simp only [getNode, hf] at h
              cases q with
              | nil =>
                  simp only [getNode, Option.some.injEq] at h
                  simp only [setNode, setChild_self cs ch a v (h ▸ hf)]
              | cons seg2 rest =>
                  simp only [setNode, hf, ih _ h,
                    setChild_self cs ch a c hf]

theorem setNode_through (cs : Bool) (r : FsNode) (q : Segs)
    (ch : List (String × FsNode)) (h : getNode cs r q = some (.dir ch))
    (nm : String) (x : FsNode) :
    setNode cs r (q ++ [nm]) x =
      setNode cs r q (.dir (setChild cs ch nm x)) := by
  induction q generalizing r with
  | nil =>
      simp only [getNode, Option.some.injEq] at h
      subst h
      simp only [List.nil_append, setNode]
  | cons a q ih =>
      cases r with
      | file c => simp [getNode] at h
      | dir ch0 =>
          cases hf : findChild cs ch0 a with
          | none => simp [getNode, hf] at h
          | some c =>
              simp only [getNode, hf] at h
              cases q with
              | nil =>
                  simp only [getNode, Option.some.injEq] at h
                  subst h
                  simp only [List.cons_append, List.nil_append, setNode, hf]
              | cons seg2 rest =>
                  have hih := ih c h
                  simp only [List.cons_append] at hih ⊢
                  simp only [setNode, hf, hih]

theorem setNode_into (cs : Bool) (r : FsNode) (q : Segs) (v : FsNode)
    (h : getNode cs r q = some v) (y : FsNode) :
    ∃ r2, setNode cs r q y = some r2 := by
  induction q generalizing r with
  | nil => exact ⟨y, by simp [setNode]⟩
  | cons a q ih =>
      cases r with
      | file c => simp [getNode] at h
      | dir ch =>
          cases hf : findChild cs ch a with
          | none => simp [getNode, hf] at h
          | some c =>
              simp only [getNode, hf] at h
              cases q with
              | nil => exact ⟨.dir (setChild cs ch a y), by simp [setNode]⟩
              | cons seg2 rest =>
                  obtain ⟨c2, hc2⟩ := ih _ h
                  exact ⟨.dir (setChild cs ch a c2), by
                    simp [setNode, hf, hc2]⟩

theorem getNode_setNode (cs : Bool) (r r2 : FsNode) (q : Segs) (y : FsNode)
    (h : setNode cs r q y = some r2) : getNode cs r2 q = some y := by
  induction q generalizing r r2 with
  | nil =>
      simp only [setNode, Option.some.injEq] at h
      rw [← h]
      rfl
  | cons a q ih =>
      cases r with
      | file c => simp [setNode] at h
      | dir ch =>
          cases q with
          | nil =>
              simp only [setNode, Option.some.injEq] at h
              subst h
              simp [getNode, findChild_setChild]
          | cons seg2 rest =>
              cases hf : findChild cs ch a with
              | none => simp [setNode, hf] at h
              | some c =>
                  cases hs : setNode cs c (seg2 :: rest) y with
                  | none => simp [setNode, hf, hs] at h
                  | some c2 =>
                      simp only [setNode, hf, hs, Option.some.injEq] at h
                      subst h
                      simp only [getNode, findChild_setChild, if_pos rfl]
                      exact ih _ _ hs

theorem setNode_absorb (cs : Bool) (r r1 : FsNode) (q : Segs) (x : FsNode)
    (h : setNode cs r q x = some r1) (y : FsNode) :
    setNode cs r1 q y = setNode cs r q y := by
  induction q generalizing r r1 with
  | nil => simp [setNode]
  | cons a q ih =>
      cases r with
      | file c => simp [setNode] at h
      | dir ch =>
          cases q with
          | nil =>
              simp only [setNode, Option.some.injEq] at h
              subst h
              simp only [setNode, setChild_setChild]
          | cons seg2 rest =>
              cases hf : findChild cs ch a with
              | none => simp [setNode, hf] at h
              | some c =>
                  cases hs : setNode cs c (seg2 :: rest) x with
                  | none => simp [setNode, hf, hs] at h
                  | some c2 =>
                      simp only [setNode, hf, hs, Option.some.injEq] at h
                      subst h
                      simp [setNode, findChild_setChild, hf,
                        ih _ _ hs, setChild_setChild]

theorem deleteNode_exists (cs : Bool) (r : FsNode) (q : Segs) (a : String)
    (v : FsNode) (h : getNode cs r (q ++ [a]) = some v) :
    ∃ r2, deleteNode cs r (q ++ [a]) = some r2 := by
  induction q generalizing r with
  | nil =>
      cases r with
      | file c => simp [getNode] at h
      | dir ch =>
          cases hf : findChild cs ch a with
          | none => simp [getNode, hf] at h
          | some c =>
              exact ⟨.dir (removeChild cs ch a), by
                simp [deleteNode, hf]⟩
  | cons b q ih =>
      cases r with
      | file c => simp [getNode] at h
      | dir ch =>
          cases hf : findChild cs ch b with
          | none => simp [getNode, hf] at h
          | some c =>
              simp only [List.cons_append, getNode, hf] at h
              obtain ⟨c2, hc2⟩ := ih _ h
              refine ⟨.dir (setChild cs ch b c2), ?_⟩
              cases hq : q ++ [a] with
              | nil => exact absurd hq (by simp)
              | cons s2 rest2 =>
                  rw [hq] at hc2
                  simp [deleteNode, hf, hq, hc2]

theorem deleteNode_parent (cs : Bool) (r r2 : FsNode) (q : Segs) (a : String)
    (h : deleteNode cs r (q ++ [a]) = some r2) :
    ∃ ch, getNode cs r q = some (.dir ch) ∧
      getNode cs r2 q = some (.dir (removeChild cs ch a)) := by
  induction q generalizing r r2 with
  | nil =>
      cases r with
      | file c => simp [deleteNode] at h
      | dir ch =>
          cases hf : findChild cs ch a with
          | none => simp [deleteNode, hf] at h
          | some c =>
              simp only [List.nil_append, deleteNode, hf,
                Option.some.injEq] at h
              refine ⟨ch, rfl, ?_⟩
              rw [← h]
              rfl
  | cons b q ih =>
      cases r with
      | file c => simp [deleteNode] at h
      | dir ch =>
          cases hq : q ++ [a] with
          | nil => exact absurd hq (by simp)
          | cons s2 rest2 =>
              rw [List.cons_append, hq] at h
              cases hf : findChild cs ch b with
              | none => simp [deleteNode, hf] at h
              | some c =>
                  cases hd : deleteNode cs c (s2 :: rest2) with
                  | none => simp [deleteNode, hf, hd] at h
                  | some c2 =>
                      simp only [deleteNode, hf, hd,
                        Option.some.injEq] at h
                      subst h
                      rw [← hq] at hd
                      obtain ⟨ch2, hg, hg2⟩ := ih _ _ hd
                      refine ⟨ch2, ?_, ?_⟩
                      · simp only [getNode, hf]
                        exact hg
                      · simp only [getNode, findChild_setChild, if_pos rfl]
                        exact hg2

theorem treeWF_child (cs : Bool) (ch : List (String × FsNode))
    (h : TreeWF cs (.dir ch)) (nm : String) (c : FsNode)
    (hf : findChild cs ch nm = some c) : TreeWF cs c := by
  cases h with
  | dir _ hnames hch =>
      obtain ⟨n, hmem⟩ := findChild_mem cs ch nm c hf
      exact hch _ hmem

theorem treeWF_getNode (cs : Bool) (r : FsNode) (q : Segs) (n : FsNode)
    (hwf : TreeWF cs r) (h : getNode cs r q = some n) : TreeWF cs n := by
  induction q generalizing r with
  | nil =>
      simp only [getNode, Option.some.injEq] at h
      rw [← h]; exact hwf
  | cons a q ih =>
      cases r with
      | file c => simp [getNode] at h
      | dir ch =>
          cases hf : findChild cs ch a with
          | none => simp [getNode, hf] at h
          | some c =>
              simp only [getNode, hf] at h
              exact ih _ (treeWF_child cs ch hwf a _ hf) h

theorem setChild_nodup (cs : Bool) (ch : List (String × FsNode))
    (nm : String) (x : FsNode)
    (h : (ch.map (fun e => normSeg cs e.1)).Nodup) :
    ((setChild cs ch nm x).map (fun e => normSeg cs e.1)).Nodup := by
  cases hf : findChild cs ch nm with
  | some c0 =>
      have hn := setChild_names_found cs ch nm x c0 hf
      have heq : (setChild cs ch nm x).map (fun e => normSeg cs e.1) =
          ch.map (fun e => normSeg cs e.1) := by
        have h2 : ((setChild cs ch nm x).map (fun e => e.1)).map (normSeg cs) =
            (ch.map (fun e => e.1)).map (normSeg cs) := by rw [hn]
        simpa [List.map_map, Function.comp] using h2
      rw [heq]
      exact h
  | none =>
      rw [setChild_missing cs ch nm x hf]
      have hnm : normSeg cs nm ∉ ch.map (fun e => normSeg cs e.1) :=
        (findChild_none_iff cs ch nm).mp hf
      simp only [List.map_append, List.map_cons, List.map_nil]
      rw [List.nodup_append]
      refine ⟨h, List.nodup_singleton _, ?_⟩
      intro b hb hb2
      simp only [List.mem_singleton] at hb2
      exact hnm (hb2 ▸ hb)

theorem treeWF_setNode (cs : Bool) (r r2 : FsNode) (q : Segs) (x : FsNode)
    (hwf : TreeWF cs r) (hx : TreeWF cs x)
    (h : setNode cs r q x = some r2) : TreeWF cs r2 := by
  induction q generalizing r r2 with
  | nil =>
      simp only [setNode, Option.some.injEq] at h
      rw [← h]; exact hx
  | cons a q ih =>
      cases r with
      | file c => simp [setNode] at h
      | dir ch =>
          cases hwf with
          | dir _ hnames hch =>
              cases q with
              | nil =>
                  simp only [setNode, Option.some.injEq] at h
                  subst h
                  refine TreeWF.dir _ (setChild_nodup cs ch a x hnames) ?_
                  intro e he
                  rcases setChild_entries cs ch a x e he with h1 | h1
                  · exact hch _ h1
                  · rw [h1]; exact hx
              | cons seg2 rest =>
                  cases hf : findChild cs ch a with
                  | none => simp [setNode, hf] at h
                  | some c =>
                      cases hs : setNode cs c (seg2 :: rest) x with
                      | none => simp [setNode, hf, hs] at h
                      | some c2 =>
                          simp only [setNode, hf, hs,
                            Option.some.injEq] at h
                          subst h
                          have hwc : TreeWF cs c :=
                            treeWF_child cs ch (TreeWF.dir _ hnames hch) a c hf
                          have hwc2 : TreeWF cs c2 := ih _ _ hwc hs
                          refine TreeWF.dir _
                            (setChild_nodup cs ch a c2 hnames) ?_
                          intro e he
                          rcases setChild_entries cs ch a c2 e he with h1 | h1
                          · exact hch _ h1
                          · rw [h1]; exact hwc2

theorem treeWF_deleteNode (cs : Bool) (r r2 : FsNode) (q : Segs)
    (hwf : TreeWF cs r) (h : deleteNode cs r q = some r2) : TreeWF cs r2 := by
  induction q generalizing r r2 with
  | nil => simp [deleteNode] at h
  | cons a q ih =>
      cases r with
      | file c => simp [deleteNode] at h
      | dir ch =>
          cases hwf with
          | dir _ hnames hch =>
              cases q with
              | nil =>
                  cases hf : findChild cs ch a with
                  | none => simp [deleteNode, hf] at h
                  | some c =>
                      simp only [deleteNode, hf, Option.some.injEq] at h
                      subst h
                      refine TreeWF.dir _ ?_ ?_
                      · exact ((removeChild_sublist cs ch a).map _).nodup hnames
                      · intro e he
                        exact hch _ ((removeChild_sublist cs ch a).mem he)
              | cons seg2 rest =>
                  cases hf : findChild cs ch a with
                  | none => simp [deleteNode, hf] at h
                  | some c =>
                      cases hd : deleteNode cs c (seg2 :: rest) with
                      | none => simp [deleteNode, hf, hd] at h
                      | some c2 =>
                          simp only [deleteNode, hf, hd,
                            Option.some.injEq] at h
                          subst h
                          have hwc : TreeWF cs c :=
                            treeWF_child cs ch (TreeWF.dir _ hnames hch) a c hf
                          have hwc2 : TreeWF cs c2 := ih _ _ hwc hd
                          refine TreeWF.dir _
                            (setChild_nodup cs ch a c2 hnames) ?_
                          intro e he
                          rcases setChild_entries cs ch a c2 e he with h1 | h1
                          · exact hch _ h1
                          · rw [h1]; exact hwc2

theorem getNode_deleteNode (cs : Bool) (r r2 : FsNode) (q : Segs)
    (hwf : TreeWF cs r) (h : deleteNode cs r q = some r2) :
    getNode cs r2 q = none := by
  induction q generalizing r r2 with
  | nil => simp [deleteNode] at h
  | cons a q ih =>
      cases r with
      | file c => simp [deleteNode] at h
      | dir ch =>
          cases q with
          | nil =>
              cases hf : findChild cs ch a with
              | none => simp [deleteNode, hf] at h
              | some c =>
                  simp only [deleteNode, hf, Option.some.injEq] at h
                  subst h
                  cases hwf with
                  | dir _ hnames hch =>
                      simp [getNode,
                        findChild_removeChild_none cs ch a hnames]
          | cons seg2 rest =>
              cases hf : findChild cs ch a with
              | none => simp [deleteNode, hf] at h
              | some c =>
                  cases hd : deleteNode cs c (seg2 :: rest) with
                  | none => simp [deleteNode, hf, hd] at h
                  | some c2 =>
                      simp only [deleteNode, hf, hd,
                        Option.some.injEq] at h
                      subst h
                      simp only [getNode, findChild_setChild, if_pos rfl]
                      exact ih _ _ (treeWF_child cs ch hwf a c hf) hd

theorem getNode_app (cs : Bool) (r : FsNode) (p q : Segs) :
    getNode cs r (p ++ q) = (getNode cs r p).bind (fun n => getNode cs n q) := by
  induction p generalizing r with
  | nil => simp [getNode]
  | cons a p ih =>
      cases r with
      | file c => simp [getNode]
      | dir ch =>
          cases hf : findChild cs ch a with
          | none => simp [getNode, hf]
          | some c => simp [getNode, hf, ih]

theorem getNode_emptyDir_ext (cs : Bool) (r : FsNode) (p q : Segs)
    (h : getNode cs r p = some (.dir [])) (hq : q ≠ []) :
    getNode cs r (p ++ q) = none := by
  rw [getNode_app, h]
  match q, hq with
  | a :: rest, _ => simp [getNode, findChild]

theorem getNode_file_ext (cs : Bool) (r : FsNode) (p q : Segs)
    (c : List Nat) (h : getNode cs r p = some (.file c)) (hq : q ≠ []) :
    getNode cs r (p ++ q) = none := by
  rw [getNode_app, h]
  match q, hq with
  | a :: rest, _ => simp [getNode]

/-! ## Provider operations over a store

The store-backed provider: stat, readFile, writeFile, mkdir, delete,
rename, readdir, and handle open with the create flag (which truncates, as
with flag w). mtime and ctime are not tracked by the store and are
reported as zero. -/

/-- provider.stat. -/
def provStat (cs : Bool) (root : FsNode) (segs : Segs) :
    Except FsError MStat :=
  match getNode cs root segs with
  | none => .error .FileNotFound
  | some (.file c) => .ok ⟨FileTypeFile, 0, 0, c.length⟩
  | some (.dir _) => .ok ⟨FileTypeDirectory, 0, 0, 0⟩

/-- provider.readFile. -/
def provReadFile (cs : Bool) (root : FsNode) (segs : Segs) :
    Except FsError (List Nat) :=
  match getNode cs root segs with
  | some (.file c) => .ok c
  | some (.dir _) => .error .FileIsADirectory
  | none => .error .FileNotFound

/-- provider.writeFile with options create and overwrite both set (the
only shape the service uses). -/
def provWriteFileCO (cs : Bool) (root : FsNode) (segs : Segs)
    (content : List Nat) : Except FsError FsNode :=
  match getNode cs root segs with
  | some (.dir _) => .error .FileIsADirectory
  | _ =>
      match setNode cs root segs (.file content) with
      | some r2 => .ok r2
      | none => .error .FileNotFound

/-- provider.mkdir. -/
def provMkdir (cs : Bool) (root : FsNode) (segs : Segs) :
    Except FsError FsNode :=
  match getNode cs root segs with
  | some _ => .error .FileExists
  | none =>
      match setNode cs root segs (.dir []) with
      | some r2 => .ok r2
      | none => .error .FileNotFound

/-- provider.delete (the recursive flag only matters at the service level,
which validates emptiness itself before a non-recursive delete). -/
def provDelete (cs : Bool) (root : FsNode) (segs : Segs) :
    Except FsError FsNode :=
  match deleteNode cs root segs with
  | some r2 => .ok r2
  | none => .error .FileNotFound

/-- provider.rename: remove the node at the source and plug it in at the
target (last write wins, matching the overwrite shape the service uses
after its own conflict validation). -/
def provRename (cs : Bool) (root : FsNode) (src dst : Segs) :
    Except FsError FsNode :=
  match getNode cs root src with
  | none => .error .FileNotFound
  | some n =>
      match deleteNode cs root src with
      | none => .error .FileNotFound
      | some r1 =>
          match setNode cs r1 dst n with
          | some r2 => .ok r2
          | none => .error .FileNotFound

/-- provider.readdir: names and file types one level down. -/
def provReaddir (cs : Bool) (root : FsNode) (segs : Segs) :
    Except FsError (List (String × Nat)) :=
  match getNode cs root segs with
  | some (.dir ch) =>
      .ok (ch.map (fun e =>
        (e.1, match e.2 with
          | .file _ => FileTypeFile
          | .dir _ => FileTypeDirectory)))
  | some (.file _) => .error .FileNotADirectory
  | none => .error .FileNotFound

/-- provider.open with create set: create the file or truncate it (flag
w); the parent must exist. -/
def provOpenTrunc (cs : Bool) (root : FsNode) (segs : Segs) :
    Except FsError FsNode :=
  match getNode cs root segs with
  | some (.dir _) => .error .FileIsADirectory
  | _ =>
      match setNode cs root segs (.file []) with
      | some r2 => .ok r2
      | none => .error .FileNotFound

/-! ## Service errors -/

/-- Errors thrown by the FileService: FileOperationError with a result
code, provider errors bubbled as-is, ENOPRO, and the distinct generic
`new Error(...)` throws of the source, one constructor each. -/
inductive SvcError where
  | op (r : FileOperationResult)
  | provider (e : FsError)
  | noProvider
  | notADirectoryMkdirp
  | sameResourceCopy
  | sourceParentOfTarget
  | targetParentOfSource
  | nonEmptyDirDelete
  | trashNotSupported
  | missingCapability
  | alreadyRegistered
deriving DecidableEq, Repr

/-! ## Claim C4: FileService.mkdirp

Lines 1117-1164 of src/unnamed/part_000: walk ancestors upward via stat
(the first existing ancestor must be a directory), recording missing
segment names, then create them top-down via mkdir, tolerating FileExists
on each step. -/

/-- The walk phase of mkdirp: the current directory is the reverse of the
first argument; missing base names are pushed onto acc child-first.
Returns the existing prefix (or the root) and the accumulated names. -/
def mkdirpWalk (cs : Bool) (root : FsNode) :
    List String → List String → Except SvcError (Segs × List String)
  | [], acc => .ok ([], acc)
  | base0 :: restRev, acc =>
      match provStat cs root (base0 :: restRev).reverse with
      | .ok stat =>
          if stat.type &&& FileTypeDirectory = 0 then
            .error .notADirectoryMkdirp
          else
            .ok ((base0 :: restRev).reverse, acc)
      | .error e =>
          if e = .FileNotFound then
            mkdirpWalk cs root restRev (acc ++ [base0])
          else
            .error (.provider e)

/-- The creation phase of mkdirp, generic in the state acted on by mkdir:
resolve each name onto the current directory, call mkdir, tolerate
FileExists and propagate every other error. -/
def mkdirpCreate {σ : Type} (mkdirF : σ → Segs → Except FsError σ) :
    σ → Segs → List String → Except SvcError σ
  | s, _, [] => .ok s
  | s, dirSegs, name :: rest =>
      match mkdirF s (dirSegs ++ [name]) with
      | .ok s2 => mkdirpCreate mkdirF s2 (dirSegs ++ [name]) rest
      | .error e =>
          if e = .FileExists then
            mkdirpCreate mkdirF s (dirSegs ++ [name]) rest
          else
            .error (.provider e)

/-- FileService.mkdirp over a provider store. -/
def mkdirpStore (cs : Bool) (root : FsNode) (dir : Segs) :
    Except SvcError FsNode :=
  match mkdirpWalk cs root dir.reverse [] with
  | .error e => .error e
  | .ok (baseSegs, acc) =>
      mkdirpCreate (fun r segs => provMkdir cs r segs) root baseSegs
        acc.reverse

theorem mkdirpWalk_spec (cs : Bool) (root : FsNode) (revSegs acc : List String)
    (base : Segs) (acc2 : List String)
    (h : mkdirpWalk cs root revSegs acc = .ok (base, acc2)) :
    ∃ names : List String,
      acc2 = acc ++ names.reverse ∧
      base ++ names = revSegs.reverse ∧
      (base = [] ∨ ∃ ch, getNode cs root base = some (.dir ch)) ∧
      (∀ k, k < names.length →
        getNode cs root (base ++ names.take (k + 1)) = none) := by
  induction revSegs generalizing acc with
  | nil =>
      simp only [mkdirpWalk, Except.ok.injEq, Prod.mk.injEq] at h
      exact ⟨[], by simp [← h.2], by simp [← h.1], Or.inl h.1.symm, by simp⟩
  | cons base0 restRev ih =>
      cases hs : provStat cs root (base0 :: restRev).reverse with
      | ok stat =>
          simp only [mkdirpWalk, hs] at h
          by_cases hd : stat.type &&& FileTypeDirectory = 0
          · simp [hd] at h
          · rw [if_neg hd] at h
            simp only [Except.ok.injEq, Prod.mk.injEq] at h
            refine ⟨[], by simp [← h.2], by simp [← h.1], ?_, by simp⟩
            right
            rw [← h.1]
            unfold provStat at hs
            cases hg : getNode cs root (base0 :: restRev).reverse with
            | none => rw [hg] at hs; simp at hs
            | some n =>
                cases n with
                | file c =>
                    rw [hg] at hs
                    simp only [Except.ok.injEq] at hs
                    rw [← hs] at hd
                    simp [FileTypeFile, FileTypeDirectory] at hd
                | dir ch => exact ⟨ch, rfl⟩
      | error e =>
          simp only [mkdirpWalk, hs] at h
          by_cases he : e = .FileNotFound
          · rw [if_pos he] at h
            obtain ⟨names, h1, h2, h3, h4⟩ := ih _ h
            refine ⟨names ++ [base0], ?_, ?_, h3, ?_⟩
            · rw [h1]
              simp
            · rw [← List.append_assoc, h2]
              simp
            · intro k hk
              simp only [List.length_append, List.length_singleton] at hk
              by_cases hkn : k < names.length
              · rw [List.take_append_of_le_length (by omega)]
                exact h4 k hkn
              · have hke : k = names.length := by omega
                subst hke
                rw [List.take_of_length_le (by simp), ← List.append_assoc, h2]
                subst he
                unfold provStat at hs
                cases hg : getNode cs root (base0 :: restRev).reverse with
                | none => simp [List.reverse_cons]  at hg ⊢; exact hg
                | some n =>
                    rw [hg] at hs
                    cases n <;> simp at hs
          · rw [if_neg he] at h
            simp at h

theorem mkdirpCreate_post (cs : Bool) (root : FsNode) (dirSegs : Segs)
    (names : List String) (root2 : FsNode)
    (hmiss : ∀ k, k < names.length →
      getNode cs root (dirSegs ++ names.take (k + 1)) = none)
    (h : mkdirpCreate (fun r segs => provMkdir cs r segs) root dirSegs names =
      .ok root2) :
    (names = [] → root2 = root) ∧
      (names ≠ [] →
        getNode cs root2 (dirSegs ++ names) = some (.dir [])) := by
  induction names generalizing root dirSegs with
  | nil =>
      simp only [mkdirpCreate, Except.ok.injEq] at h
      exact ⟨fun _ => h.symm, fun hne => absurd rfl hne⟩
  | cons n rest ih =>
      have hmiss0 : getNode cs root (dirSegs ++ [n]) = none := by
        have := hmiss 0 (by simp)
        simpa using this
      simp only [mkdirpCreate, provMkdir, hmiss0] at h
      cases hset : setNode cs root (dirSegs ++ [n]) (.dir []) with
      | none => rw [hset] at h; simp at h
      | some root1 =>
          rw [hset] at h
          simp only [] at h
          have hget1 : getNode cs root1 (dirSegs ++ [n]) = some (.dir []) :=
            getNode_setNode cs root root1 _ _ hset
          have hmiss1 : ∀ k, k < rest.length →
              getNode cs root1 ((dirSegs ++ [n]) ++ rest.take (k + 1)) = none := by
            intro k hk
            exact getNode_emptyDir_ext cs root1 _ _ hget1 (by
              intro hc
              have : (rest.take (k + 1)).length = 0 := by rw [hc]; rfl
              rw [List.length_take] at this
              omega)
          obtain ⟨ih1, ih2⟩ := ih root1 (dirSegs ++ [n]) hmiss1 h
          refine ⟨fun hc => absurd hc (by simp), fun _ => ?_⟩
          cases hre : rest with
          | nil =>
              subst hre
              have := ih1 rfl
              subst this
              simpa using hget1
          | cons r rs =>
              have h5 := ih2 (by rw [hre]; simp)
              rw [List.append_assoc, hre] at h5
              simpa using h5

theorem mkdirpCreate_wf (cs : Bool) (root : FsNode) (dirSegs : Segs)
    (names : List String) (root2 : FsNode) (hwf : TreeWF cs root)
    (h : mkdirpCreate (fun r segs => provMkdir cs r segs) root dirSegs names =
      .ok root2) : TreeWF cs root2 := by
  induction names generalizing root dirSegs with
  | nil =>
      simp only [mkdirpCreate, Except.ok.injEq] at h
      rw [← h]; exact hwf
  | cons n rest ih =>
      simp only [mkdirpCreate] at h
      cases hm : provMkdir cs root (dirSegs ++ [n]) with
      | ok root1 =>
          simp only [hm] at h
          unfold provMkdir at hm
          cases hg : getNode cs root (dirSegs ++ [n]) with
          | some x => rw [hg] at hm; simp at hm
          | none =>
              rw [hg] at hm
              cases hset : setNode cs root (dirSegs ++ [n]) (.dir []) with
              | none => rw [hset] at hm; simp at hm
              | some r1 =>
                  rw [hset] at hm
                  simp only [Except.ok.injEq] at hm
                  subst hm
                  exact ih r1 _ (treeWF_setNode cs root r1 _ _ hwf
                    (TreeWF.dir [] (by simp) (by simp)) hset) h
      | error e =>
          simp only [hm] at h
          by_cases he : e = .FileExists
          · rw [if_pos he] at h
            exact ih root _ hwf h
          · rw [if_neg he] at h
            simp at h

/-- mkdirp is a no-op when the directory already exists as a directory
(or is the root). -/
theorem mkdirpStore_noop (cs : Bool) (root : FsNode) (p : Segs)
    (h : p = [] ∨ ∃ ch, getNode cs root p = some (.dir ch)) :
    mkdirpStore cs root p = .ok root := by
  rcases h with h | ⟨ch, h⟩
  · subst h
    rfl
  · unfold mkdirpStore
    cases hp : p.reverse with
    | nil =>
        have : p = [] := by
          have := congrArg List.reverse hp
          simpa using this
        subst this
        rfl
    | cons b rest =>
        have hrev : (b :: rest).reverse = p := by
          have := congrArg List.reverse hp
          simpa using this.symm
        simp only [mkdirpWalk, hrev, provStat, h]
        simp [FileTypeDirectory, mkdirpCreate]

/-- Success characterization of mkdirp: the store is unchanged, or the
target directory exists (freshly created empty) in the result. -/
theorem mkdirpStore_char (cs : Bool) (root : FsNode) (dir : Segs)
    (root2 : FsNode) (h : mkdirpStore cs root dir = .ok root2) :
    (root2 = root ∧
      (dir = [] ∨ ∃ ch, getNode cs root dir = some (.dir ch))) ∨
      getNode cs root2 dir = some (.dir []) := by
  unfold mkdirpStore at h
  cases hw : mkdirpWalk cs root dir.reverse [] with
  | error e => rw [hw] at h; simp at h
  | ok pr =>
      obtain ⟨base, acc⟩ := pr
      simp only [hw] at h
      obtain ⟨names, h1, h2, h3, h4⟩ := mkdirpWalk_spec cs root _ _ _ _ hw
      simp only [List.nil_append] at h1
      have hnames : acc.reverse = names := by rw [h1]; simp
      rw [hnames] at h
      have hdir : base ++ names = dir := by
        rw [h2]; simp
      obtain ⟨hc1, hc2⟩ := mkdirpCreate_post cs root base names root2 h4 h
      cases hn : names with
      | nil =>
          left
          subst hn
          refine ⟨hc1 rfl, ?_⟩
          simp only [List.append_nil] at hdir
          subst hdir
          exact h3
      | cons x xs =>
          right
          rw [← hdir]
          exact hc2 (by rw [hn]; simp)

/-- Well-formedness is preserved by mkdirp. -/
theorem mkdirpStore_wf (cs : Bool) (root : FsNode) (dir : Segs)
    (root2 : FsNode) (hwf : TreeWF cs root)
    (h : mkdirpStore cs root dir = .ok root2) : TreeWF cs root2 := by
  unfold mkdirpStore at h
  cases hw : mkdirpWalk cs root dir.reverse [] with
  | error e => rw [hw] at h; simp at h
  | ok pr =>
      obtain ⟨base, acc⟩ := pr
      simp only [hw] at h
      exact mkdirpCreate_wf cs root base acc.reverse root2 hwf h

theorem mkdirpWalk_root_file (cs : Bool) (c : List Nat)
    (revSegs acc : List String) :
    mkdirpWalk cs (.file c) revSegs acc = .ok ([], acc ++ revSegs) := by
  induction revSegs generalizing acc with
  | nil => simp [mkdirpWalk]
  | cons b rest ih =>
      have hstat : provStat cs (.file c) ((b :: rest).reverse) =
          .error .FileNotFound := by
        unfold provStat
        have hg : getNode cs (.file c) (b :: rest).reverse = none := by
          cases hrev : (b :: rest).reverse with
          | nil =>
              have := congrArg List.length hrev
              simp at this
          | cons x xs => simp [getNode]
        rw [hg]
      rw [List.reverse_cons] at hstat
      simp [mkdirpWalk, hstat, ih]

theorem mkdirpWalk_file_stops (cs : Bool) (root : FsNode) (p : Segs)
    (c : List Nat) (hp : p ≠ []) (hfile : getNode cs root p = some (.file c)) :
    ∀ qrev acc,
      mkdirpWalk cs root (qrev ++ p.reverse) acc = .error .notADirectoryMkdirp := by
  intro qrev
  induction qrev with
  | nil =>
      intro acc
      cases hrev : p.reverse with
      | nil =>
          exact absurd (by simpa using congrArg List.reverse hrev) hp
      | cons b rest =>
          have hrr : (b :: rest).reverse = p := by
            have := congrArg List.reverse hrev
            simpa using this.symm
          have hstat : provStat cs root (b :: rest).reverse =
              .ok ⟨FileTypeFile, 0, 0, c.length⟩ := by
            rw [hrr]
            unfold provStat
            rw [hfile]
          rw [List.reverse_cons] at hstat
          simp [mkdirpWalk, hstat, FileTypeFile, FileTypeDirectory]
  | cons a qrev ih =>
      intro acc
      have hstat : provStat cs root ((a :: (qrev ++ p.reverse))).reverse =
          .error .FileNotFound := by
        have heq : ((a :: (qrev ++ p.reverse))).reverse =
            p ++ (qrev.reverse ++ [a]) := by
          simp [List.reverse_cons, List.reverse_append]
        have hgn : getNode cs root ((a :: (qrev ++ p.reverse))).reverse = none := by
          rw [heq]
          exact getNode_file_ext cs root p _ c hfile (by simp)
        unfold provStat
        rw [hgn]
      simp only [List.reverse_cons, List.reverse_append, List.reverse_reverse,
        List.append_assoc] at hstat
      have hstep : mkdirpWalk cs root ((a :: qrev) ++ p.reverse) acc =
          mkdirpWalk cs root (qrev ++ p.reverse) (acc ++ [a]) := by
        rw [List.cons_append]
        simp [mkdirpWalk, hstat]
      rw [hstep]
      exact ih _

/-- Claim C4: for every directory, (a) if mkdirp returns successfully then
the directory and every nonempty ancestor of it exists as a directory in
the resulting store; (b) if the first existing ancestor found while
walking upward is a file, the call fails; (c) during bottom-up creation a
FileExists error from provider.mkdir is tolerated at every step, while any
other mkdir error propagates. -/
theorem claim4_mkdirp :
    (∀ (cs : Bool) (root : FsNode) (dir : Segs) (root2 : FsNode),
        mkdirpStore cs root dir = .ok root2 →
        ∀ p q : Segs, dir = p ++ q → p ≠ [] →
          ∃ ch2, getNode cs root2 p = some (.dir ch2)) ∧
      (∀ (cs : Bool) (root : FsNode) (p q : Segs) (c : List Nat),
        getNode cs root p = some (.file c) → p ++ q ≠ [] →
          ∃ e, mkdirpStore cs root (p ++ q) = .error e) ∧
      (∀ (σ : Type) (s : σ) (dirSegs : Segs) (names : List String),
        mkdirpCreate (fun _ _ => .error .FileExists) s dirSegs names = .ok s) ∧
      (∀ (σ : Type) (mkdirF : σ → Segs → Except FsError σ) (s : σ)
          (dirSegs : Segs) (n : String) (rest : List String) (e : FsError),
        e ≠ .FileExists → mkdirF s (dirSegs ++ [n]) = .error e →
          mkdirpCreate mkdirF s dirSegs (n :: rest) = .error (.provider e)) := by
  refine ⟨?_, ?_, ?_, ?_⟩
  · intro cs root dir root2 h p q hdir hp
    have hsome : ∃ chX, getNode cs root2 dir = some (.dir chX) := by
      rcases mkdirpStore_char cs root dir root2 h with ⟨heq, hd⟩ | hd
      · subst heq
        rcases hd with hd | ⟨ch, hch⟩
        · rw [hd] at hdir
          exact absurd (List.append_eq_nil.mp hdir.symm).1 hp
        · exact ⟨ch, hch⟩
      · exact ⟨[], hd⟩
    obtain ⟨chX, hchX⟩ := hsome
    subst hdir
    cases hq : q with
    | nil =>
        rw [hq, List.append_nil] at hchX
        exact ⟨chX, hchX⟩
    | cons b qs =>
        exact getNode_app_dir cs root2 p q _ hchX (by rw [hq]; simp)
  · intro cs root p q c hfile hne
    cases p with
    | nil =>
        have hroot : root = .file c := by simpa [getNode] using hfile
        subst hroot
        cases hq : q with
        | nil =>
            subst hq
            simp at hne
        | cons d0 drest =>
            subst hq
            refine ⟨.provider .FileNotFound, ?_⟩
            unfold mkdirpStore
            rw [mkdirpWalk_root_file cs c _ []]
            simp [mkdirpCreate, provMkdir, getNode, setNode]
    | cons p0 ps =>
        refine ⟨.notADirectoryMkdirp, ?_⟩
        unfold mkdirpStore
        have hrw : ((p0 :: ps) ++ q).reverse = q.reverse ++ (p0 :: ps).reverse :=
          List.reverse_append _ _
        rw [hrw,
          mkdirpWalk_file_stops cs root (p0 :: ps) c (by simp) hfile q.reverse []]
  · intro σ s dirSegs names
    induction names generalizing dirSegs with
    | nil => rfl
    | cons n rest ih => simp [mkdirpCreate, ih]
  · intro σ mkdirF s dirSegs n rest e hne hm
    simp [mkdirpCreate, hm, hne]

/-- Witness for claim C4 at concrete inputs: creating mem:/a/b in an empty
store materializes both directories; the generic create phase swallows
FileExists and propagates Unknown. -/
theorem claim4_witness :
    mkdirpStore false (.dir []) ["a", "b"] =
        .ok (.dir [("a", .dir [("b", .dir [])])]) ∧
      (∃ ch2, getNode false (.dir [("a", .dir [("b", .dir [])])]) ["a"] =
        some (.dir ch2)) ∧
      mkdirpCreate (σ := FsNode) (fun _ _ => .error .FileExists)
          (.dir []) [] ["x"] = .ok (.dir []) ∧
      mkdirpCreate (σ := FsNode) (fun _ _ => .error .Unknown)
          (.dir []) [] ["x"] = .error (.provider .Unknown) := by
  refine ⟨rfl, ?_, ?_, ?_⟩
  · exact claim4_mkdirp.1 false (.dir []) ["a", "b"]
      (.dir [("a", .dir [("b", .dir [])])]) rfl ["a"] ["b"] rfl (by simp)
  · exact claim4_mkdirp.2.2.1 FsNode (.dir []) [] ["x"]
  · exact claim4_mkdirp.2.2.2 FsNode _ (.dir []) [] "x" [] .Unknown
      (by decide) rfl

/-! ## The FileService over provider stores

Service state holds the registered providers (scheme, capability bitset,
store) and the onDidRunOperation events fired so far. JavaScript object
references to providers are modelled as indices into the provider list, so
that a captured provider always sees the current store. -/

/-- FileOperation values carried by operation events. -/
inductive FileOperation where
  | CREATE
  | DELETE
  | MOVE
  | COPY
deriving DecidableEq, Repr

/-- A resolved child entry: name and kind. -/
structure ChildInfo where
  name : String
  isDirectory : Bool
deriving DecidableEq, Repr

/-- FileStat with metadata as returned by resolve. Children are resolved
one level deep, which is exact for the option shapes the service itself
passes (no resolveTo, no resolveSingleChildDescendants). -/
structure RStat where
  resource : MUri
  isFile : Bool
  isDirectory : Bool
  mtime : Nat
  ctime : Nat
  size : Nat
  etag : String
  children : Option (List ChildInfo)
deriving DecidableEq, Repr

/-- A registered provider. -/
structure MProvider where
  scheme : String
  capabilities : Nat
  root : FsNode

/-- An onDidRunOperation event. -/
structure OpEvent where
  resource : MUri
  operation : FileOperation
  stat : Option RStat

/-- Service state. -/
structure SvcState where
  providers : List MProvider
  events : List OpEvent

/-- Scheme lookup over the provider map, returning index and provider. -/
def provLookup : List MProvider → String → Option (Nat × MProvider)
  | [], _ => none
  | p :: rest, scheme =>
      if p.scheme = scheme then some (0, p)
      else (provLookup rest scheme).map (fun e => (e.1 + 1, e.2))

/-- Replace the store of the provider at an index. -/
def setProvRoot : List MProvider → Nat → FsNode → List MProvider
  | [], _, _ => []
  | p :: rest, 0, r => ⟨p.scheme, p.capabilities, r⟩ :: rest
  | p :: rest, i + 1, r => p :: setProvRoot rest i r

/-- Capabilities of the provider at an index. -/
def provCaps (st : SvcState) (i : Nat) : Nat :=
  ((st.providers.get? i).map (fun p => p.capabilities)).getD 0

/-- Case sensitivity of the provider at an index. -/
def provCS (st : SvcState) (i : Nat) : Bool :=
  hasCap (provCaps st i) PathCaseSensitiveCap

/-- Store of the provider at an index. -/
def provRoot (st : SvcState) (i : Nat) : FsNode :=
  ((st.providers.get? i).map (fun p => p.root)).getD (.dir [])

/-- State with the store of provider i replaced. -/
def setRoot (st : SvcState) (i : Nat) (r : FsNode) : SvcState :=
  ⟨setProvRoot st.providers i r, st.events⟩

/-- State with an operation event appended. -/
def fireEvent (st : SvcState) (ev : OpEvent) : SvcState :=
  ⟨st.providers, st.events ++ [ev]⟩

/-- FileService.withProvider: the index of the provider for the scheme of
the URI (paths are absolute by construction of MUri), ENOPRO otherwise. -/
def withProviderIdx (st : SvcState) (u : MUri) : Except SvcError Nat :=
  match provLookup st.providers u.scheme with
  | some e => .ok e.1
  | none => .error .noProvider

/-- FileService.withWriteProvider / withReadProvider capability gate: the
provider must have FileOpenReadWriteClose or FileReadWrite. -/
def withRWProviderIdx (st : SvcState) (u : MUri) : Except SvcError Nat :=
  match withProviderIdx st u with
  | .error e => .error e
  | .ok i =>
      if hasCap (provCaps st i) FileOpenReadWriteCloseCap ||
          hasCap (provCaps st i) FileReadWriteCap then .ok i
      else .error .missingCapability

/-- FileService.throwIfFileSystemIsReadonly. -/
def throwIfReadonly (st : SvcState) (i : Nat) : Except SvcError Unit :=
  if hasCap (provCaps st i) ReadonlyCap then
    .error (.op .FILE_PERMISSION_DENIED)
  else .ok ()

/-- One level of resolved children. -/
def nodeChildren : FsNode → Option (List ChildInfo)
  | .file _ => none
  | .dir ch =>
      some (ch.map (fun e =>
        ⟨e.1, match e.2 with
          | .dir _ => true
          | .file _ => false⟩))

/-- FileService.resolve over a store (metadata always included; the store
carries no clock, mtime and ctime read zero). -/
def resolveStore (cs : Bool) (root : FsNode) (u : MUri) :
    Except SvcError RStat :=
  match getNode cs root u.segs with
  | none => .error (.op .FILE_NOT_FOUND)
  | some (.file c) =>
      .ok ⟨u, true, false, 0, 0, c.length, etag 0 c.length, none⟩
  | some (.dir ch) =>
      .ok ⟨u, false, true, 0, 0, 0, etag 0 0,
        nodeChildren (.dir ch)⟩

/-- FileService.resolve. -/
def resolveSvc (st : SvcState) (u : MUri) : Except SvcError RStat :=
  match withProviderIdx st u with
  | .error e => .error e
  | .ok i => resolveStore (provCS st i) (provRoot st i) u

/-- FileService.exists over the registered providers. -/
def existsSvc (st : SvcState) (u : MUri) : Except SvcError Bool :=
  match withProviderIdx st u with
  | .error e => .error e
  | .ok i =>
      match provStat (provCS st i) (provRoot st i) u.segs with
      | .ok _ => .ok true
      | .error _ => .ok false

/-- FileService.del (lines 1166-1195): validate trash support, existence,
and emptiness for non-recursive deletes, then delete through the provider
and fire a DELETE event. -/
def delSvc (st : SvcState) (u : MUri) (useTrash recursive : Bool) :
    Except SvcError SvcState :=
  match withProviderIdx st u with
  | .error e => .error e
  | .ok i =>
      match throwIfReadonly st i with
      | .error e => .error e
      | .ok _ =>
          if useTrash && !(hasCap (provCaps st i) TrashCap) then
            .error .trashNotSupported
          else
            match existsSvc st u with
            | .error e => .error e
            | .ok ex =>
                if !ex then .error (.op .FILE_NOT_FOUND)
                else
                  let emptinessOk : Except SvcError Unit :=
                    if recursive then .ok ()
                    else
                      match resolveSvc st u with
                      | .error e => .error e
                      | .ok stat =>
                          if stat.isDirectory ∧
                              (stat.children.getD []).length > 0 then
                            .error .nonEmptyDirDelete
                          else .ok ()
                  match emptinessOk with
                  | .error e => .error e
                  | .ok _ =>
                      match provDelete (provCS st i) (provRoot st i) u.segs with
                      | .error e => .error (.provider e)
                      | .ok r2 =>
                          .ok (fireEvent (setRoot st i r2) ⟨u, .DELETE, none⟩)

/-- Overwrite a region of a byte list at a position (zero padded when the
position lies beyond the end). -/
def listWriteAt (content : List Nat) (pos : Nat) (data : List Nat) :
    List Nat :=
  (content.take pos ++ List.replicate (pos - content.length) 0) ++ data ++
    content.drop (pos + data.length)

/-- FileService.writeFile (lines 734-773) with a buffer input: resolve a
write-capable provider, reject readonly, validate (stat plus dirty-write
check), mkdirp the parent when the file is new, then write either
unbuffered (provider.writeFile) or buffered (open with create which
truncates, write the whole buffer at position zero through the write loop,
close), and finally resolve with metadata as the return value. No
operation event is fired here. -/
def writeFileSvc (st : SvcState) (u : MUri) (bs : List Nat)
    (opts : Option MWriteOptions) : Except SvcError (RStat × SvcState) :=
  match withRWProviderIdx st u with
  | .error e => .error e
  | .ok i =>
      match throwIfReadonly st i with
      | .error e => .error e
      | .ok _ =>
          let cs := provCS st i
          match validateWriteFile (provStat cs (provRoot st i) u.segs) opts with
          | .error r => .error (.op r)
          | .ok statOpt =>
              let afterMk : Except SvcError SvcState :=
                match statOpt with
                | none =>
                    match mkdirpStore cs (provRoot st i) u.parent.segs with
                    | .error e => .error e
                    | .ok r2 => .ok (setRoot st i r2)
                | some _ => .ok st
              match afterMk with
              | .error e => .error e
              | .ok st1 =>
                  let written : Except FsError FsNode :=
                    if !(hasCap (provCaps st1 i) FileOpenReadWriteCloseCap) ||
                        hasCap (provCaps st1 i) FileReadWriteCap then
                      provWriteFileCO cs (provRoot st1 i) u.segs bs
                    else
                      match provOpenTrunc cs (provRoot st1 i) u.segs with
                      | .error e => .error e
                      | .ok r1 =>
                          match setNode cs r1 u.segs
                              (.file (listWriteAt [] 0 bs)) with
                          | some r2 => .ok r2
                          | none => .error .FileNotFound
                  match written with
                  | .error e => .error (.provider e)
                  | .ok r3 =>
                      let st2 := setRoot st1 i r3
                      match resolveSvc st2 u with
                      | .error e => .error e
                      | .ok stat => .ok (stat, st2)

/-- FileService.createFile (lines 718-732): fail FILE_MODIFIED_SINCE when
the target exists and overwrite is not set, write, then fire a CREATE
event carrying the resulting stat. -/
def createFileSvc (st : SvcState) (u : MUri) (bs : List Nat)
    (overwrite : Bool) : Except SvcError (RStat × SvcState) :=
  match existsSvc st u with
  | .error e => .error e
  | .ok ex =>
      if !overwrite && ex then .error (.op .FILE_MODIFIED_SINCE)
      else
        match writeFileSvc st u bs none with
        | .error e => .error e
        | .ok (stat, st1) =>
            .ok (stat, fireEvent st1 ⟨u, .CREATE, some stat⟩)

/-- Claim C7, counterexample: a successful writeFile on a fresh provider
leaves the event log empty, so no onDidRunOperation event with operation
WRITE or CREATE (or any operation at all) is fired by writeFile. -/
theorem claim7_counterexample :
    ∃ stat st2,
      writeFileSvc ⟨[⟨"mem", FileReadWriteCap, .dir []⟩], []⟩
          ⟨"mem", ["a"]⟩ [104, 105] none = .ok (stat, st2) ∧
        st2.events = [] :=
  ⟨_, _, rfl, rfl⟩

theorem writeFileSvc_post (st : SvcState) (u : MUri) (bs : List Nat)
    (opts : Option MWriteOptions) (stat : RStat) (st2 : SvcState)
    (h : writeFileSvc st u bs opts = .ok (stat, st2)) :
    st2.events = st.events ∧ resolveSvc st2 u = .ok stat := by
  unfold writeFileSvc at h
  cases hw : withRWProviderIdx st u with
  | error e => rw [hw] at h; simp at h
  | ok i =>
      simp only [hw] at h
      cases hro : throwIfReadonly st i with
      | error e => simp only [hro] at h; simp at h
      | ok u2 =>
          simp only [hro] at h
          cases hv : validateWriteFile
              (provStat (provCS st i) (provRoot st i) u.segs) opts with
          | error r => simp only [hv] at h; simp at h
          | ok statOpt =>
              simp only [hv] at h
              cases statOpt with
              | none =>
                  cases hmk : mkdirpStore (provCS st i) (provRoot st i)
                      u.parent.segs with
                  | error e => simp only [hmk] at h; simp at h
                  | ok r2 =>
                      simp only [hmk] at h
                      cases hwr : (if !(hasCap (provCaps (setRoot st i r2) i)
                            FileOpenReadWriteCloseCap) ||
                            hasCap (provCaps (setRoot st i r2) i)
                              FileReadWriteCap then
                          provWriteFileCO (provCS st i)
                            (provRoot (setRoot st i r2) i) u.segs bs
                        else
                          match provOpenTrunc (provCS st i)
                              (provRoot (setRoot st i r2) i) u.segs with
                          | .error e => .error e
                          | .ok r1 =>
                              match setNode (provCS st i) r1 u.segs
                                  (.file (listWriteAt [] 0 bs)) with
                              | some r2 => .ok r2
                              | none => .error .FileNotFound) with
                      | error e => simp only [hwr] at h; simp at h
                      | ok r3 =>
                          simp only [hwr] at h
                          cases hres : resolveSvc
                              (setRoot (setRoot st i r2) i r3) u with
                          | error e => simp only [hres] at h; simp at h
                          | ok stat2 =>
                              simp only [hres, Except.ok.injEq,
                                Prod.mk.injEq] at h
                              obtain ⟨h1, h2⟩ := h
                              subst h1
                              subst h2
                              exact ⟨rfl, hres⟩
              | some st0 =>
                  cases hwr : (if !(hasCap (provCaps st i)
                        FileOpenReadWriteCloseCap) ||
                        hasCap (provCaps st i) FileReadWriteCap then
                      provWriteFileCO (provCS st i) (provRoot st i) u.segs bs
                    else
                      match provOpenTrunc (provCS st i)
                          (provRoot st i) u.segs with
                      | .error e => .error e
                      | .ok r1 =>
                          match setNode (provCS st i) r1 u.segs
                              (.file (listWriteAt [] 0 bs)) with
                          | some r2 => .ok r2
                          | none => .error .FileNotFound) with
                  | error e => simp only [hwr] at h; simp at h
                  | ok r3 =>
                      simp only [hwr] at h
                      cases hres : resolveSvc (setRoot st i r3) u with
                      | error e => simp only [hres] at h; simp at h
                      | ok stat2 =>
                          simp only [hres, Except.ok.injEq,
                            Prod.mk.injEq] at h
                          obtain ⟨h1, h2⟩ := h
                          subst h1
                          subst h2
                          exact ⟨rfl, hres⟩

/-- Claim C7 as amended: after every successful writeFile the service
returns the result of resolving the URI with metadata on the post-write
state and fires no onDidRunOperation event itself; a write routed through
createFile additionally fires a CREATE event carrying the resulting
stat. -/
theorem claim7_write_post :
    (∀ st u bs opts stat st2,
        writeFileSvc st u bs opts = .ok (stat, st2) →
        st2.events = st.events ∧ resolveSvc st2 u = .ok stat) ∧
      (∀ st u bs ov stat st2,
        createFileSvc st u bs ov = .ok (stat, st2) →
        st2.events = st.events ++ [⟨u, .CREATE, some stat⟩]) := by
  refine ⟨fun st u bs opts stat st2 h => writeFileSvc_post st u bs opts stat st2 h, ?_⟩
  intro st u bs ov stat st2 h
  unfold createFileSvc at h

  cases he : existsSvc st u with
  | error e => rw [he] at h; simp at h
  | ok ex =>
      simp only [he] at h
      by_cases hov : (!ov && ex) = true
      · rw [if_pos hov] at h; simp at h
      · rw [if_neg hov] at h
        cases hw : writeFileSvc st u bs none with
        | error e => simp only [hw] at h; simp at h
        | ok pr =>
            obtain ⟨stat1, st1⟩ := pr
            simp only [hw] at h
            simp only [Except.ok.injEq, Prod.mk.injEq] at h
            obtain ⟨h1, h2⟩ := h
            subst h1
            subst h2
            have hev : st1.events = st.events :=
              (writeFileSvc_post st u bs none stat1 st1 hw).1
            simp [fireEvent, hev]

/-- Witness for claim C7 at a concrete input: a successful writeFile on a
fresh provider returns the resolve result of the written file and fires no
event. -/
theorem claim7_witness :
    (⟨[⟨"mem", FileReadWriteCap, .dir [("b", .file [1])]⟩], []⟩ :
        SvcState).events = ([] : List OpEvent) ∧
      resolveSvc ⟨[⟨"mem", FileReadWriteCap, .dir [("b", .file [1])]⟩], []⟩
          ⟨"mem", ["b"]⟩ =
        .ok ⟨⟨"mem", ["b"]⟩, true, false, 0, 0, 1, etag 0 1, none⟩ :=
  claim7_write_post.1 ⟨[⟨"mem", FileReadWriteCap, .dir []⟩], []⟩
    ⟨"mem", ["b"]⟩ [1] none _ _ rfl

/-! ## The move and copy engine -/

/-- The mode argument of doMoveCopy. -/
inductive MCMode where
  | move
  | copy
deriving DecidableEq, Repr

/-- Rank used for the termination of doMoveCopy (a cross-provider move
recurses once into copy mode). -/
def modeRank : MCMode → Nat
  | .move => 1
  | .copy => 0

/-- FileService.doValidateMoveCopy (lines 1063-1102): same-provider case
checks (same resource with different path case, target inside source),
then the conflict and containment checks when the target exists. Returns
(exists, isSameResourceWithDifferentPathCase). -/
def doValidateMoveCopy (st : SvcState) (i : Nat) (source : MUri) (j : Nat)
    (target : MUri) (mode : MCMode) (overwrite : Bool) :
    Except SvcError (Bool × Bool) :=
  let firstCheck : Except SvcError Bool :=
    if i = j then
      let isPathCaseSensitive := provCS st i
      let isSame :=
        if isPathCaseSensitive then false
        else source.lower == target.lower
      if isSame && (mode == MCMode.copy) then .error .sameResourceCopy
      else if !isSame && target.isEqualOrParent source isPathCaseSensitive then
        .error .sourceParentOfTarget
      else .ok isSame
    else .ok false
  match firstCheck with
  | .error e => .error e
  | .ok isSame =>
      match existsSvc st target with
      | .error e => .error e
      | .ok ex =>
          if ex && !isSame then
            if !overwrite then .error (.op .FILE_MOVE_CONFLICT)
            else if (i == j) &&
                source.isEqualOrParent target (provCS st i) then
              .error .targetParentOfSource
            else .ok (ex, isSame)
          else .ok (ex, isSame)

/-- The buffered pipe loop of doPipeBufferedQueued (lines 1378-1418): read
from the source at posInFile into the shared buffer at posInBuffer, write
the bytes read back out of the buffer into the target at posInFile, and
reset posInBuffer whenever the buffer is exactly full; stop when a read
returns zero bytes. The source is a fixed list because the source file is
not mutated during a pipe. -/
def pipeBufferedLoop (src : List Nat) (bufSize : Nat) (buffer : List Nat)
    (posInFile posInBuffer : Nat) (tgt : List Nat) : List Nat :=
  let bytesRead := min (bufSize - posInBuffer) (src.length - posInFile)
  if _h : bytesRead = 0 then tgt
  else
    let chunk := (src.drop posInFile).take bytesRead
    let buffer2 := listWriteAt buffer posInBuffer chunk
    let data := (buffer2.drop posInBuffer).take bytesRead
    let tgt2 := listWriteAt tgt posInFile data
    let posInBuffer2 :=
      if posInBuffer + bytesRead = bufSize then 0 else posInBuffer + bytesRead
    pipeBufferedLoop src bufSize buffer2 (posInFile + bytesRead) posInBuffer2
      tgt2
termination_by src.length - posInFile
decreasing_by
  simp only [bytesRead] at _h ⊢
  omega

/-- The buffered read loop of createReadStream followed by streamToBuffer:
chunks of at most bufSize bytes concatenated until a read returns zero
bytes. -/
def readBufferedLoop (src : List Nat) (bufSize pos : Nat) (acc : List Nat) :
    List Nat :=
  let bytesRead := min bufSize (src.length - pos)
  if _h : bytesRead = 0 then acc
  else
    readBufferedLoop src bufSize (pos + bytesRead)
      (acc ++ (src.drop pos).take bytesRead)
termination_by src.length - pos
decreasing_by
  simp only [bytesRead] at _h ⊢
  omega

/-- FileService.doCopyFile (lines 1022-1043) with the source content in
hand (the source file is immutable during a copy): dispatch on the four
combinations of source and target capability; falls through doing nothing
when no combination matches. Returns the new target store. -/
def doCopyFileC (srcCaps tgtCaps : Nat) (tcs : Bool) (content : List Nat)
    (tgtRoot : FsNode) (tgtSegs : Segs) : Except FsError FsNode :=
  if hasCap srcCaps FileOpenReadWriteCloseCap &&
      hasCap tgtCaps FileOpenReadWriteCloseCap then
    match provOpenTrunc tcs tgtRoot tgtSegs with
    | .error e => .error e
    | .ok r1 =>
        match setNode tcs r1 tgtSegs
            (.file (pipeBufferedLoop content 65536
              (List.replicate 65536 0) 0 0 [])) with
        | some r2 => .ok r2
        | none => .error .FileNotFound
  else if hasCap srcCaps FileOpenReadWriteCloseCap &&
      hasCap tgtCaps FileReadWriteCap then
    provWriteFileCO tcs tgtRoot tgtSegs (readBufferedLoop content 65536 0 [])
  else if hasCap srcCaps FileReadWriteCap &&
      hasCap tgtCaps FileOpenReadWriteCloseCap then
    match provOpenTrunc tcs tgtRoot tgtSegs with
    | .error e => .error e
    | .ok r1 =>
        match setNode tcs r1 tgtSegs (.file (listWriteAt [] 0 content)) with
        | some r2 => .ok r2
        | none => .error .FileNotFound
  else if hasCap srcCaps FileReadWriteCap &&
      hasCap tgtCaps FileReadWriteCap then
    provWriteFileCO tcs tgtRoot tgtSegs content
  else
    .ok tgtRoot

mutual

/-- Copy one resolved source entry into the target store at a path:
doCopyFile for files, doCopyFolder (mkdir in the target, then the children
in order) for directories (lines 1022-1061). The entry is the resolved
source subtree, which is immutable during the copy, so re-resolving a
child from the live source store equals taking its subtree. -/
def copyEntry (srcCaps tgtCaps : Nat) (tcs : Bool) :
    FsNode → FsNode → Segs → Except FsError FsNode
  | .file c, tgtRoot, segs => doCopyFileC srcCaps tgtCaps tcs c tgtRoot segs
  | .dir ch, tgtRoot, segs =>
      match provMkdir tcs tgtRoot segs with
      | .error e => .error e
      | .ok r1 => copyEntries srcCaps tgtCaps tcs ch r1 segs

/-- Copy resolved source children in order. -/
def copyEntries (srcCaps tgtCaps : Nat) (tcs : Bool) :
    List (String × FsNode) → FsNode → Segs → Except FsError FsNode
  | [], r, _ => .ok r
  | (name, child) :: rest, r, segs =>
      match copyEntry srcCaps tgtCaps tcs child r (segs ++ [name]) with
      | .error e => .error e
      | .ok r1 => copyEntries srcCaps tgtCaps tcs rest r1 segs

end

/-- The shared middle of doMoveCopy after validation: delete the target
when it exists (and is not the same resource with different case) under
overwrite, then mkdirp the target parent (lines 971-977). -/
def mcPrelude (st : SvcState) (j : Nat) (target : MUri) (ex isSame : Bool)
    (overwrite : Bool) : Except SvcError SvcState :=
  let afterDel : Except SvcError SvcState :=
    if ex && !isSame && overwrite then delSvc st target false true
    else .ok st
  match afterDel with
  | .error e => .error e
  | .ok st1 =>
      match mkdirpStore (provCS st1 j) (provRoot st1 j)
          target.parent.segs with
      | .error e => .error e
      | .ok r2 => .ok (setRoot st1 j r2)

/-- FileService.doMoveCopy in copy mode (lines 963-999): no-op on
identical URI strings, validation, target delete and parent mkdirp, then
provider.copy on a same provider with FileFolderCopy, or a manual
traversal of the resolved source. -/
def doMoveCopyC (st : SvcState) (i : Nat) (source : MUri) (j : Nat)
    (target : MUri) (overwrite : Bool) :
    Except SvcError (MCMode × SvcState) :=
  if source = target then .ok (.copy, st)
  else
    match doValidateMoveCopy st i source j target .copy overwrite with
    | .error e => .error e
    | .ok (ex, isSame) =>
        match mcPrelude st j target ex isSame overwrite with
        | .error e => .error e
        | .ok st2 =>
            if i = j ∧ hasCap (provCaps st2 i) FileFolderCopyCap then
              match getNode (provCS st2 i) (provRoot st2 i) source.segs with
              | none => .error (.provider .FileNotFound)
              | some n =>
                  match setNode (provCS st2 i) (provRoot st2 i)
                      target.segs n with
                  | some r3 => .ok (.copy, setRoot st2 i r3)
                  | none => .error (.provider .FileNotFound)
            else
              match getNode (provCS st2 i) (provRoot st2 i) source.segs with
              | none => .error (.op .FILE_NOT_FOUND)
              | some n =>
                  match copyEntry (provCaps st2 i) (provCaps st2 j)
                      (provCS st2 j) n (provRoot st2 j) target.segs with
                  | .error e => .error (.provider e)
                  | .ok r3 => .ok (.copy, setRoot st2 j r3)

/-- FileService.doMoveCopy (lines 963-1020): copy mode as above; move mode
renames on a single provider and otherwise recurses once into copy mode
followed by a recursive delete of the source, returning copy. -/
def doMoveCopy (st : SvcState) (i : Nat) (source : MUri) (j : Nat)
    (target : MUri) (mode : MCMode) (overwrite : Bool) :
    Except SvcError (MCMode × SvcState) :=
  match mode with
  | .copy => doMoveCopyC st i source j target overwrite
  | .move =>
      if source = target then .ok (.move, st)
      else
        match doValidateMoveCopy st i source j target .move overwrite with
        | .error e => .error e
        | .ok (ex, isSame) =>
            match mcPrelude st j target ex isSame overwrite with
            | .error e => .error e
            | .ok st2 =>
                if i = j then
                  match provRename (provCS st2 i) (provRoot st2 i)
                      source.segs target.segs with
                  | .error e => .error (.provider e)
                  | .ok r3 => .ok (.move, setRoot st2 i r3)
                else
                  match doMoveCopyC st2 i source j target overwrite with
                  | .error e => .error e
                  | .ok pr =>
                      match delSvc pr.2 source false true with
                      | .error e => .error e
                      | .ok st4 => .ok (.copy, st4)

/-- FileService.move (lines 935-947): both providers must be writable and
not readonly; after doMoveCopy, resolve the target and fire MOVE or COPY
according to the mode actually performed. -/
def moveSvc (st : SvcState) (source target : MUri) (overwrite : Bool) :
    Except SvcError (RStat × SvcState) :=
  match withRWProviderIdx st source with
  | .error e => .error e
  | .ok i =>
      match throwIfReadonly st i with
      | .error e => .error e
      | .ok _ =>
          match withRWProviderIdx st target with
          | .error e => .error e
          | .ok j =>
              match throwIfReadonly st j with
              | .error e => .error e
              | .ok _ =>
                  match doMoveCopy st i source j target .move overwrite with
                  | .error e => .error e
                  | .ok pr =>
                      match resolveSvc pr.2 target with
                      | .error e => .error e
                      | .ok stat =>
                          .ok (stat, fireEvent pr.2
                            ⟨source,
                              (if pr.1 = MCMode.move then .MOVE else .COPY),
                              some stat⟩)

/-- FileService.copy (lines 949-961): a readable source provider, a
writable non-readonly target provider; after doMoveCopy, resolve the
target and fire COPY or MOVE according to the mode actually performed. -/
def copySvc (st : SvcState) (source target : MUri) (overwrite : Bool) :
    Except SvcError (RStat × SvcState) :=
  match withRWProviderIdx st source with
  | .error e => .error e
  | .ok i =>
      match withRWProviderIdx st target with
      | .error e => .error e
      | .ok j =>
          match throwIfReadonly st j with
          | .error e => .error e
          | .ok _ =>
              match doMoveCopy st i source j target .copy overwrite with
              | .error e => .error e
              | .ok pr =>
                  match resolveSvc pr.2 target with
                  | .error e => .error e
                  | .ok stat =>
                      .ok (stat, fireEvent pr.2
                        ⟨source,
                          (if pr.1 = MCMode.copy then .COPY else .MOVE),
                          some stat⟩)

/-! ### Provider list lemmas -/

theorem provLookup_get (ps : List MProvider) (scheme : String) (i : Nat)
    (p : MProvider) (h : provLookup ps scheme = some (i, p)) :
    ps.get? i = some p ∧ p.scheme = scheme := by
  induction ps generalizing i with
  | nil => simp [provLookup] at h
  | cons q rest ih =>
      by_cases hq : q.scheme = scheme
      · simp only [provLookup, if_pos hq, Option.some.injEq,
          Prod.mk.injEq] at h
        rw [← h.1, ← h.2]
        exact ⟨rfl, hq⟩
      · simp only [provLookup, if_neg hq] at h
        cases hl : provLookup rest scheme with
        | none => rw [hl] at h; simp at h
        | some e =>
            obtain ⟨i0, p0⟩ := e
            rw [hl] at h
            simp only [Option.map_some', Option.some.injEq,
              Prod.mk.injEq] at h
            obtain ⟨h1, h2⟩ := h
            subst h1
            subst h2
            simpa using ih i0 hl

theorem setProvRoot_get_self (ps : List MProvider) (i : Nat) (p : MProvider)
    (r : FsNode) (h : ps.get? i = some p) :
    (setProvRoot ps i r).get? i = some ⟨p.scheme, p.capabilities, r⟩ := by
  induction ps generalizing i with
  | nil => simp at h
  | cons q rest ih =>
      cases i with
      | zero =>
          simp only [List.get?_cons_zero, Option.some.injEq] at h
          subst h
          rfl
      | succ i =>
          simp only [List.get?_cons_succ] at h
          simpa [setProvRoot] using ih i h

theorem setProvRoot_same (ps : List MProvider) (i : Nat) (p : MProvider)
    (h : ps.get? i = some p) : setProvRoot ps i p.root = ps := by
  induction ps generalizing i with
  | nil => simp at h
  | cons q rest ih =>
      cases i with
      | zero =>
          simp only [List.get?_cons_zero, Option.some.injEq] at h
          subst h
          rfl
      | succ i =>
          simp only [List.get?_cons_succ] at h
          simp [setProvRoot, ih i h]

theorem provLookup_setProvRoot (ps : List MProvider) (scheme : String)
    (i j : Nat) (p : MProvider) (r : FsNode)
    (h : provLookup ps scheme = some (j, p)) :
    provLookup (setProvRoot ps i r) scheme =
      some (j, if j = i then ⟨p.scheme, p.capabilities, r⟩ else p) := by
  induction ps generalizing i j with
  | nil => simp [provLookup] at h
  | cons q rest ih =>
      cases i with
      | zero =>
          by_cases hq : q.scheme = scheme
          · simp only [provLookup, if_pos hq, Option.some.injEq,
              Prod.mk.injEq] at h
            obtain ⟨h1, h2⟩ := h
            subst h1
            subst h2
            simp [setProvRoot, provLookup, hq]
          · simp only [provLookup, if_neg hq] at h
            cases hl : provLookup rest scheme with
            | none => rw [hl] at h; simp at h
            | some e =>
                obtain ⟨j0, p0⟩ := e
                rw [hl] at h
                simp only [Option.map_some', Option.some.injEq,
                  Prod.mk.injEq] at h
                obtain ⟨h1, h2⟩ := h
                subst h1
                subst h2
                simp [setProvRoot, provLookup, hq, hl]
      | succ i =>
          by_cases hq : q.scheme = scheme
          · simp only [provLookup, if_pos hq, Option.some.injEq,
              Prod.mk.injEq] at h
            obtain ⟨h1, h2⟩ := h
            subst h1
            subst h2
            simp [setProvRoot, provLookup, hq]
          · simp only [provLookup, if_neg hq] at h
            cases hl : provLookup rest scheme with
            | none => rw [hl] at h; simp at h
            | some e =>
                obtain ⟨j0, p0⟩ := e
                rw [hl] at h
                simp only [Option.map_some', Option.some.injEq,
                  Prod.mk.injEq] at h
                obtain ⟨h1, h2⟩ := h
                subst h1
                subst h2
                have hrec := ih i j0 hl
                simp only [setProvRoot, provLookup, if_neg hq, hrec,
                  Option.map_some']
                by_cases hji : j0 = i
                · simp [hji]
                · simp [hji, fun hc => hji (Nat.succ_injective hc)]

theorem setNode_child_into (cs : Bool) (r : FsNode) (q : Segs)
    (ch : List (String × FsNode)) (h : getNode cs r q = some (.dir ch))
    (nm : String) (x : FsNode) :
    ∃ r2, setNode cs r (q ++ [nm]) x = some r2 ∧
      getNode cs r2 (q ++ [nm]) = some x := by
  rw [setNode_through cs r q ch h nm x]
  obtain ⟨r2, hr2⟩ := setNode_into cs r q _ h (.dir (setChild cs ch nm x))
  refine ⟨r2, hr2, ?_⟩
  have hq := getNode_setNode cs r r2 q _ hr2
  rw [getNode_snoc, hq]
  simp [childLookup, findChild_setChild]

theorem map_dropLast_comm {α β : Type} (f : α → β) :
    ∀ l : List α, l.dropLast.map f = (l.map f).dropLast
  | [] => rfl
  | [_] => rfl
  | a :: b :: t => by
      have ih := map_dropLast_comm f (b :: t)
      simp only [List.dropLast_cons₂, List.map_cons] at ih ⊢
      rw [ih]

/-! ## Claim C8: same resource with different path case -/

/-- Claim C8: when source and target live on the same case-insensitive
provider and their URIs differ only in character case (but are not
identical), move succeeds as a rename of the same resource (skipping the
overwrite-conflict and delete-target steps), whereas copy fails with the
same-resource error. -/
theorem claim8_case_insensitive_move_copy
    (st : SvcState) (source target : MUri) (i : Nat) (p : MProvider)
    (n : FsNode) (ov : Bool)
    (hls : provLookup st.providers source.scheme = some (i, p))
    (hsch : target.scheme = source.scheme)
    (hci : hasCap p.capabilities PathCaseSensitiveCap = false)
    (hrw : (hasCap p.capabilities FileOpenReadWriteCloseCap ||
      hasCap p.capabilities FileReadWriteCap) = true)
    (hro : hasCap p.capabilities ReadonlyCap = false)
    (hlow : source.lower = target.lower)
    (hne : source ≠ target)
    (hsegs : source.segs ≠ [])
    (hsrc : getNode false p.root source.segs = some n) :
    (∃ stat st2, moveSvc st source target ov = .ok (stat, st2)) ∧
      copySvc st source target ov = .error .sameResourceCopy := by
  obtain ⟨hget, hpscheme⟩ := provLookup_get st.providers source.scheme i p hls
  have hget2 : st.providers[i]? = some p := by
    rw [← List.get?_eq_getElem?]
    exact hget
  have hcaps : provCaps st i = p.capabilities := by
    simp [provCaps, hget2]
  have hcsEq : provCS st i = false := by
    simp [provCS, hcaps, hci]
  have hrootEq : provRoot st i = p.root := by
    simp [provRoot, hget2]
  have hlt : provLookup st.providers target.scheme = some (i, p) := by
    rw [hsch]; exact hls
  -- resolved provider and capability gates
  have hwpS : withRWProviderIdx st source = .ok i := by
    simp [withRWProviderIdx, withProviderIdx, hls, hcaps, hrw]
  have hwpT : withRWProviderIdx st target = .ok i := by
    simp [withRWProviderIdx, withProviderIdx, hlt, hcaps, hrw]
  have hroOk : throwIfReadonly st i = .ok () := by
    simp [throwIfReadonly, hcaps, hro]
  -- segment facts from the lowercase equality
  have hmaps : source.segs.map lowerStr = target.segs.map lowerStr :=
    congrArg MUri.segs hlow
  have hnormF : normSeg false = lowerStr := funext fun s => rfl
  have hnorm : source.segs.map (normSeg false) =
      target.segs.map (normSeg false) := by rw [hnormF]; exact hmaps
  have htlen : target.segs ≠ [] := by
    intro hc
    have := congrArg List.length hmaps
    rw [hc] at this
    simp at this
    exact hsegs this
  have hgt : getNode false p.root target.segs = some n := by
    rw [getNode_congr false p.root target.segs source.segs hnorm.symm]
    exact hsrc
  -- exists(target) resolves to true
  have hex : existsSvc st target = .ok true := by
    unfold existsSvc withProviderIdx
    rw [hlt]
    simp only [hcsEq, hrootEq]
    unfold provStat
    rw [hgt]
    cases n <;> rfl
  -- validation results for both modes
  have hisSame : (source.lower == target.lower) = true := by
    simp [hlow]
  have hvalM : doValidateMoveCopy st i source i target .move ov =
      .ok (true, true) := by
    unfold doValidateMoveCopy
    simp only [if_pos rfl, hcsEq, Bool.false_eq_true, if_false, hisSame, hex]
    rfl
  have hvalC : doValidateMoveCopy st i source i target .copy ov =
      .error .sameResourceCopy := by
    unfold doValidateMoveCopy
    simp only [if_pos rfl, hcsEq, Bool.false_eq_true, if_false, hisSame]
    rfl
  -- parent of the target exists as a directory
  obtain ⟨chp, hchp⟩ : ∃ chp, getNode false p.root source.segs.dropLast =
      some (.dir chp) := by
    have hdecomp := List.dropLast_append_getLast hsegs
    refine getNode_app_dir false p.root source.segs.dropLast
      [source.segs.getLast hsegs] n ?_ (by simp)
    rw [hdecomp]
    exact hsrc
  have hdropnorm : target.segs.dropLast.map (normSeg false) =
      source.segs.dropLast.map (normSeg false) := by
    rw [map_dropLast_comm, map_dropLast_comm, hnorm]
  have hchpT : getNode false p.root target.segs.dropLast =
      some (.dir chp) := by
    rw [getNode_congr false p.root target.segs.dropLast
      source.segs.dropLast hdropnorm]
    exact hchp
  have hmk : mkdirpStore false p.root target.parent.segs = .ok p.root :=
    mkdirpStore_noop false p.root target.parent.segs (Or.inr ⟨chp, hchpT⟩)
  have hsetSelf : setRoot st i p.root = st := by
    unfold setRoot
    rw [setProvRoot_same st.providers i p hget]
  -- rename succeeds
  obtain ⟨r1, hdel⟩ : ∃ r1, deleteNode false p.root source.segs = some r1 := by
    have hdecomp := List.dropLast_append_getLast hsegs
    rw [← hdecomp]
    rw [← hdecomp] at hsrc
    exact deleteNode_exists false p.root source.segs.dropLast
      (source.segs.getLast hsegs) n hsrc
  obtain ⟨chd, hchd1, hchd2⟩ :=
    deleteNode_parent false p.root r1 source.segs.dropLast
      (source.segs.getLast hsegs)
      (by rw [List.dropLast_append_getLast hsegs]; exact hdel)
  have hchd2T : getNode false r1 target.segs.dropLast =
      some (.dir (removeChild false chd (source.segs.getLast hsegs))) := by
    rw [getNode_congr false r1 target.segs.dropLast source.segs.dropLast
      hdropnorm]
    exact hchd2
  obtain ⟨r3, hset3, hget3⟩ := setNode_child_into false r1
    target.segs.dropLast _ hchd2T (target.segs.getLast htlen) n
  have hts : target.segs =
      target.segs.dropLast ++ [target.segs.getLast htlen] :=
    (List.dropLast_append_getLast htlen).symm
  have hset3f : setNode false r1 target.segs n = some r3 := by
    rw [hts]
    exact hset3
  have hget3f : getNode false r3 target.segs = some n := by
    rw [hts]
    exact hget3
  have hren : provRename false p.root source.segs target.segs = .ok r3 := by
    unfold provRename
    simp only [hsrc, hdel, hset3f]
  -- the shared prelude leaves the store untouched (isSame suppresses delete)
  have hpre : mcPrelude st i target true true ov = .ok st := by
    unfold mcPrelude
    have hcond : (true && !true && ov) = false := by simp
    simp only [hcond, Bool.false_eq_true, if_false, hcsEq, hrootEq, hmk,
      hsetSelf]
  -- the run of doMoveCopy in move mode
  have hdmc : doMoveCopy st i source i target .move ov =
      .ok (.move, setRoot st i r3) := by
    rw [doMoveCopy]
    rw [if_neg hne]
    simp only [hvalM, hpre, if_pos rfl, if_true, hcsEq, hrootEq, hren]
  -- the final resolve on the renamed store
  have hlt3 : provLookup (setProvRoot st.providers i r3) target.scheme =
      some (i, ⟨p.scheme, p.capabilities, r3⟩) := by
    have := provLookup_setProvRoot st.providers target.scheme i i p r3 hlt
    simpa using this
  have hg3 : (setProvRoot st.providers i r3)[i]? =
      some ⟨p.scheme, p.capabilities, r3⟩ := by
    rw [← List.get?_eq_getElem?]
    exact setProvRoot_get_self st.providers i p r3 hget
  have hcs3 : provCS ⟨setProvRoot st.providers i r3, st.events⟩ i = false := by
    simp [provCS, provCaps, hg3, hci]
  have hroot3 : provRoot ⟨setProvRoot st.providers i r3, st.events⟩ i =
      r3 := by
    simp [provRoot, hg3]
  have hres : ∃ stat, resolveSvc (setRoot st i r3) target = .ok stat := by
    unfold resolveSvc withProviderIdx setRoot
    simp only [hlt3, hcs3, hroot3]
    unfold resolveStore
    rw [hget3f]
    cases n with
    | file c => exact ⟨_, rfl⟩
    | dir ch => exact ⟨_, rfl⟩
  constructor
  · obtain ⟨stat0, hstat0⟩ := hres
    refine ⟨stat0, fireEvent (setRoot st i r3) ⟨source, .MOVE, some stat0⟩, ?_⟩
    unfold moveSvc
    simp only [hwpS, hroOk, hwpT, hdmc, hstat0]
    rfl
  · unfold copySvc
    simp only [hwpS, hwpT, hroOk]
    rw [doMoveCopy, doMoveCopyC]
    rw [if_neg hne]
    simp only [hvalC]

/-- Concrete run of claim 8: a case-insensitive read/write provider holding
the file "A"; moving file:A to file:a succeeds while copying it fails with
the same-resource error. -/
theorem claim8_witness :
    (∃ stat st2, moveSvc ⟨[⟨"mem", 2, .dir [("A", .file [1])]⟩], []⟩
        ⟨"mem", ["A"]⟩ ⟨"mem", ["a"]⟩ false = .ok (stat, st2)) ∧
      copySvc ⟨[⟨"mem", 2, .dir [("A", .file [1])]⟩], []⟩
        ⟨"mem", ["A"]⟩ ⟨"mem", ["a"]⟩ false = .error .sameResourceCopy :=
  claim8_case_insensitive_move_copy
    ⟨[⟨"mem", 2, .dir [("A", .file [1])]⟩], []⟩
    ⟨"mem", ["A"]⟩ ⟨"mem", ["a"]⟩ 0 ⟨"mem", 2, .dir [("A", .file [1])]⟩
    (.file [1]) false rfl rfl (by decide) (by decide) (by decide)
    rfl (by decide) (by decide) rfl

/-! ## Claim C3: cross-provider move

A move whose source and target resolve to different providers is a
recursive copy followed by a recursive delete of the source, and
doMoveCopy reports copy. The lemmas below characterize the byte loops of
doCopyFile, then the entry copier, then the full service run. -/

theorem listWriteAt_length (l : List Nat) (pos : Nat) (d : List Nat) :
    (listWriteAt l pos d).length = max l.length (pos + d.length) := by
  simp [listWriteAt]
  omega

theorem listWriteAt_append_self (l d : List Nat) :
    listWriteAt l l.length d = l ++ d := by
  simp [listWriteAt,
    List.drop_eq_nil_of_le (Nat.le_add_right l.length d.length)]

theorem listWriteAt_extract (l : List Nat) (pos : Nat) (d : List Nat)
    (h : pos ≤ l.length) :
    ((listWriteAt l pos d).drop pos).take d.length = d := by
  unfold listWriteAt
  rw [Nat.sub_eq_zero_of_le h]
  simp only [List.replicate_zero, List.append_nil]
  rw [List.append_assoc]
  have h1 : (l.take pos).length = pos := by
    rw [List.length_take]
    omega
  have h2 := List.drop_left (l.take pos) (d ++ l.drop (pos + d.length))
  rw [h1] at h2
  rw [h2, List.take_left]

theorem readBufferedLoop_eq (src : List Nat) (bufSize : Nat)
    (hb : 0 < bufSize) :
    ∀ (k pos : Nat) (acc : List Nat), src.length - pos ≤ k →
      readBufferedLoop src bufSize pos acc = acc ++ src.drop pos := by
  intro k
  induction k with
  | zero =>
      intro pos acc hk
      rw [readBufferedLoop]
      have h0 : min bufSize (src.length - pos) = 0 := by omega
      rw [dif_pos h0, List.drop_eq_nil_of_le (by omega), List.append_nil]
  | succ k ih =>
      intro pos acc hk
      rw [readBufferedLoop]
      by_cases h0 : min bufSize (src.length - pos) = 0
      · rw [dif_pos h0, List.drop_eq_nil_of_le (by omega), List.append_nil]
      · rw [dif_neg h0]
        rw [ih (pos + min bufSize (src.length - pos))
          (acc ++ (src.drop pos).take (min bufSize (src.length - pos)))
          (by omega)]
        rw [List.append_assoc]
        have hdd : src.drop (pos + min bufSize (src.length - pos)) =
            (src.drop pos).drop (min bufSize (src.length - pos)) := by
          rw [List.drop_drop, Nat.add_comm]
        rw [hdd, List.take_append_drop]

theorem pipeBufferedLoop_eq (src : List Nat) (bufSize : Nat) :
    ∀ (k : Nat) (buffer tgt : List Nat) (posInFile posInBuffer : Nat),
      src.length - posInFile ≤ k →
      buffer.length = bufSize →
      posInBuffer < bufSize →
      tgt.length = posInFile →
      pipeBufferedLoop src bufSize buffer posInFile posInBuffer tgt =
        tgt ++ src.drop posInFile := by
  intro k
  induction k with
  | zero =>
      intro buffer tgt posInFile posInBuffer hk hbuf hpb ht
      rw [pipeBufferedLoop]
      dsimp only
      have h0 : min (bufSize - posInBuffer) (src.length - posInFile) = 0 := by
        omega
      rw [dif_pos h0, List.drop_eq_nil_of_le (by omega), List.append_nil]
  | succ k ih =>
      intro buffer tgt posInFile posInBuffer hk hbuf hpb ht
      rw [pipeBufferedLoop]
      dsimp only
      by_cases h0 : min (bufSize - posInBuffer) (src.length - posInFile) = 0
      · rw [dif_pos h0, List.drop_eq_nil_of_le (by omega), List.append_nil]
      · rw [dif_neg h0]
        have hclen : ((src.drop posInFile).take
            (min (bufSize - posInBuffer) (src.length - posInFile))).length =
            min (bufSize - posInBuffer) (src.length - posInFile) := by
          rw [List.length_take, List.length_drop]
          omega
        have hdata : ((listWriteAt buffer posInBuffer
              ((src.drop posInFile).take
                (min (bufSize - posInBuffer) (src.length - posInFile)))).drop
                  posInBuffer).take
              (min (bufSize - posInBuffer) (src.length - posInFile)) =
            (src.drop posInFile).take
              (min (bufSize - posInBuffer) (src.length - posInFile)) := by
          have hx := listWriteAt_extract buffer posInBuffer
            ((src.drop posInFile).take
              (min (bufSize - posInBuffer) (src.length - posInFile)))
            (by omega)
          rw [hclen] at hx
          exact hx
        rw [hdata]
        have htgt2 : listWriteAt tgt posInFile
            ((src.drop posInFile).take
              (min (bufSize - posInBuffer) (src.length - posInFile))) =
            tgt ++ (src.drop posInFile).take
              (min (bufSize - posInBuffer) (src.length - posInFile)) := by
          have hy := listWriteAt_append_self tgt
            ((src.drop posInFile).take
              (min (bufSize - posInBuffer) (src.length - posInFile)))
          rw [ht] at hy
          exact hy
        rw [htgt2]
        rw [ih (listWriteAt buffer posInBuffer
            ((src.drop posInFile).take
              (min (bufSize - posInBuffer) (src.length - posInFile))))
          (tgt ++ (src.drop posInFile).take
            (min (bufSize - posInBuffer) (src.length - posInFile)))
          (posInFile + min (bufSize - posInBuffer) (src.length - posInFile))
          (if posInBuffer + min (bufSize - posInBuffer)
              (src.length - posInFile) = bufSize then 0
            else posInBuffer + min (bufSize - posInBuffer)
              (src.length - posInFile))
          (by omega)
          (by rw [listWriteAt_length, hclen]; omega)
          (by split <;> omega)
          (by rw [List.length_append, ht, hclen])]
        rw [List.append_assoc]
        have hdd : src.drop (posInFile +
            min (bufSize - posInBuffer) (src.length - posInFile)) =
            (src.drop posInFile).drop
              (min (bufSize - posInBuffer) (src.length - posInFile)) := by
          rw [List.drop_drop, Nat.add_comm]
        rw [hdd, List.take_append_drop]

theorem findChild_append (cs : Bool) (l1 l2 : List (String × FsNode))
    (nm : String) (h : findChild cs l1 nm = none) :
    findChild cs (l1 ++ l2) nm = findChild cs l2 nm := by
  induction l1 with
  | nil => rfl
  | cons e rest ih =>
      obtain ⟨n1, c1⟩ := e
      by_cases he : normSeg cs n1 = normSeg cs nm
      · simp [findChild, he] at h
      · simp only [findChild, List.cons_append, if_neg he] at h ⊢
        exact ih h

/-- A successful doCopyFile writes exactly the source content at the
target path: all four capability branches funnel the full byte list into
one setNode of a file node. -/
theorem doCopyFileC_correct (srcCaps tgtCaps : Nat) (tcs : Bool)
    (content : List Nat) (tgtRoot r3 : FsNode) (segs : Segs)
    (hs : (hasCap srcCaps FileOpenReadWriteCloseCap ||
      hasCap srcCaps FileReadWriteCap) = true)
    (ht : (hasCap tgtCaps FileOpenReadWriteCloseCap ||
      hasCap tgtCaps FileReadWriteCap) = true)
    (h : doCopyFileC srcCaps tgtCaps tcs content tgtRoot segs = .ok r3) :
    setNode tcs tgtRoot segs (.file content) = some r3 := by
  have hpipe : pipeBufferedLoop content 65536
      (List.replicate 65536 0) 0 0 [] = content := by
    have hx := pipeBufferedLoop_eq content 65536 content.length
      (List.replicate 65536 0) [] 0 0 (by omega)
      (by rw [List.length_replicate]) (by omega) rfl
    rw [List.drop_zero, List.nil_append] at hx
    exact hx
  have hread : readBufferedLoop content 65536 0 [] = content := by
    have hx := readBufferedLoop_eq content 65536 (by omega)
      content.length 0 [] (by omega)
    rw [List.drop_zero, List.nil_append] at hx
    exact hx
  have hwz : listWriteAt [] 0 content = content := by simp [listWriteAt]
  unfold doCopyFileC at h
  by_cases b1 : (hasCap srcCaps FileOpenReadWriteCloseCap &&
      hasCap tgtCaps FileOpenReadWriteCloseCap) = true
  · rw [if_pos b1] at h
    cases ho : provOpenTrunc tcs tgtRoot segs with
    | error e => simp [ho] at h
    | ok r1 =>
        simp only [ho] at h
        rw [hpipe] at h
        cases hsn : setNode tcs r1 segs (.file content) with
        | none => simp [hsn] at h
        | some r2 =>
            simp only [hsn, Except.ok.injEq] at h
            subst h
            have hs0 : setNode tcs tgtRoot segs (.file []) = some r1 := by
              unfold provOpenTrunc at ho
              cases hg : getNode tcs tgtRoot segs with
              | none =>
                  simp only [hg] at ho
                  cases hsn0 : setNode tcs tgtRoot segs (.file []) with
                  | none => simp [hsn0] at ho
                  | some x =>
                      simp only [hsn0, Except.ok.injEq] at ho
                      rw [ho]
              | some m =>
                  cases m with
                  | dir ch0 => simp [hg] at ho
                  | file c0 =>
                      simp only [hg] at ho
                      cases hsn0 : setNode tcs tgtRoot segs (.file []) with
                      | none => simp [hsn0] at ho
                      | some x =>
                          simp only [hsn0, Except.ok.injEq] at ho
                          rw [ho]
            rw [setNode_absorb tcs tgtRoot r1 segs (.file []) hs0] at hsn
            exact hsn
  · rw [if_neg b1] at h
    by_cases b2 : (hasCap srcCaps FileOpenReadWriteCloseCap &&
        hasCap tgtCaps FileReadWriteCap) = true
    · rw [if_pos b2] at h
      rw [hread] at h
      unfold provWriteFileCO at h
      cases hg : getNode tcs tgtRoot segs with
      | some m =>
          cases m with
          | dir ch0 => simp [hg] at h
          | file c0 =>
              simp only [hg] at h
              cases hsn : setNode tcs tgtRoot segs (.file content) with
              | none => simp [hsn] at h
              | some r2 =>
                  simp only [hsn, Except.ok.injEq] at h
                  rw [h]
      | none =>
          simp only [hg] at h
          cases hsn : setNode tcs tgtRoot segs (.file content) with
          | none => simp [hsn] at h
          | some r2 =>
              simp only [hsn, Except.ok.injEq] at h
              rw [h]
    · rw [if_neg b2] at h
      by_cases b3 : (hasCap srcCaps FileReadWriteCap &&
          hasCap tgtCaps FileOpenReadWriteCloseCap) = true
      · rw [if_pos b3] at h
        cases ho : provOpenTrunc tcs tgtRoot segs with
        | error e => simp [ho] at h
        | ok r1 =>
            simp only [ho] at h
            rw [hwz] at h
            cases hsn : setNode tcs r1 segs (.file content) with
            | none => simp [hsn] at h
            | some r2 =>
                simp only [hsn, Except.ok.injEq] at h
                subst h
                have hs0 : setNode tcs tgtRoot segs (.file []) = some r1 := by
                  unfold provOpenTrunc at ho
                  cases hg : getNode tcs tgtRoot segs with
                  | none =>
                      simp only [hg] at ho
                      cases hsn0 : setNode tcs tgtRoot segs (.file []) with
                      | none => simp [hsn0] at ho
                      | some x =>
                          simp only [hsn0, Except.ok.injEq] at ho
                          rw [ho]
                  | some m =>
                      cases m with
                      | dir ch0 => simp [hg] at ho
                      | file c0 =>
                          simp only [hg] at ho
                          cases hsn0 : setNode tcs tgtRoot segs (.file []) with
                          | none => simp [hsn0] at ho
                          | some x =>
                              simp only [hsn0, Except.ok.injEq] at ho
                              rw [ho]
                rw [setNode_absorb tcs tgtRoot r1 segs (.file []) hs0] at hsn
                exact hsn
      · rw [if_neg b3] at h
        by_cases b4 : (hasCap srcCaps FileReadWriteCap &&
            hasCap tgtCaps FileReadWriteCap) = true
        · rw [if_pos b4] at h
          unfold provWriteFileCO at h
          cases hg : getNode tcs tgtRoot segs with
          | some m =>
              cases m with
              | dir ch0 => simp [hg] at h
              | file c0 =>
                  simp only [hg] at h
                  cases hsn : setNode tcs tgtRoot segs (.file content) with
                  | none => simp [hsn] at h
                  | some r2 =>
                      simp only [hsn, Except.ok.injEq] at h
                      rw [h]
          | none =>
              simp only [hg] at h
              cases hsn : setNode tcs tgtRoot segs (.file content) with
              | none => simp [hsn] at h
              | some r2 =>
                  simp only [hsn, Except.ok.injEq] at h
                  rw [h]
        · exfalso
          revert hs ht b1 b2 b3 b4
          cases hasCap srcCaps FileOpenReadWriteCloseCap <;>
            cases hasCap srcCaps FileReadWriteCap <;>
            cases hasCap tgtCaps FileOpenReadWriteCloseCap <;>
            cases hasCap tgtCaps FileReadWriteCap <;> simp

/-- Joint correctness of copyEntry and copyEntries, by induction on the
size of the copied entry: a successful copy of a well-formed resolved
source entry equals a single setNode of that entry at the target path, and
folding copyEntries over fresh well-formed children extends the target
directory by exactly those children, in order. -/
theorem copy_correct_fuel (srcCaps tgtCaps : Nat) (tcs : Bool)
    (hs : (hasCap srcCaps FileOpenReadWriteCloseCap ||
      hasCap srcCaps FileReadWriteCap) = true)
    (ht : (hasCap tgtCaps FileOpenReadWriteCloseCap ||
      hasCap tgtCaps FileReadWriteCap) = true) :
    ∀ N : Nat,
      (∀ (n tgtRoot : FsNode) (segs : Segs) (r3 : FsNode), sizeOf n ≤ N →
        copyEntry srcCaps tgtCaps tcs n tgtRoot segs = .ok r3 →
        TreeWF tcs n → setNode tcs tgtRoot segs n = some r3) ∧
      (∀ (ch : List (String × FsNode)) (r : FsNode) (segs : Segs)
          (r2 : FsNode) (acc : List (String × FsNode)), sizeOf ch ≤ N →
        copyEntries srcCaps tgtCaps tcs ch r segs = .ok r2 →
        getNode tcs r segs = some (.dir acc) →
        (ch.map (fun e => normSeg tcs e.1)).Nodup →
        (∀ e ∈ ch, TreeWF tcs e.2) →
        (∀ e ∈ ch, findChild tcs acc e.1 = none) →
        setNode tcs r segs (.dir (acc ++ ch)) = some r2) := by
  intro N
  induction N with
  | zero =>
      constructor
      · intro n tgtRoot segs r3 hN
        exfalso
        cases n <;> simp at hN
      · intro ch r segs r2 acc hN
        exfalso
        cases ch <;> simp at hN
  | succ N ih =>
      obtain ⟨ihE, ihS⟩ := ih
      constructor
      · intro n tgtRoot segs r3 hN h hwf
        cases n with
        | file c =>
            simp only [copyEntry] at h
            exact doCopyFileC_correct srcCaps tgtCaps tcs c tgtRoot r3 segs
              hs ht h
        | dir ch =>
            simp only [copyEntry] at h
            cases hmk : provMkdir tcs tgtRoot segs with
            | error e => simp [hmk] at h
            | ok r1 =>
                simp only [hmk] at h
                have hs0 : setNode tcs tgtRoot segs (.dir []) = some r1 := by
                  unfold provMkdir at hmk
                  cases hg : getNode tcs tgtRoot segs with
                  | some m => simp [hg] at hmk
                  | none =>
                      simp only [hg] at hmk
                      cases hsn : setNode tcs tgtRoot segs (.dir []) with
                      | none => simp [hsn] at hmk
                      | some x =>
                          simp only [hsn, Except.ok.injEq] at hmk
                          rw [hmk]
                have hg1 : getNode tcs r1 segs = some (.dir []) :=
                  getNode_setNode tcs tgtRoot r1 segs _ hs0
                have hsz : sizeOf ch ≤ N := by
                  simp only [FsNode.dir.sizeOf_spec] at hN
                  omega
                cases hwf with
                | dir _ hnames hch =>
                    have hfold := ihS ch r1 segs r3 [] hsz h hg1 hnames hch
                      (fun e _ => rfl)
                    rw [setNode_absorb tcs tgtRoot r1 segs (.dir [])
                      hs0] at hfold
                    simpa using hfold
      · intro ch r segs r2 acc hN h hacc hnames hch hfresh
        cases ch with
        | nil =>
            simp only [copyEntries, Except.ok.injEq] at h
            rw [List.append_nil, ← h]
            exact setNode_self tcs r segs _ hacc
        | cons e rest =>
            obtain ⟨name, child⟩ := e
            have hsz : sizeOf child ≤ N ∧ sizeOf rest ≤ N := by
              simp only [List.cons.sizeOf_spec, Prod.mk.sizeOf_spec] at hN
              omega
            simp only [copyEntries] at h
            cases hce : copyEntry srcCaps tgtCaps tcs child r
                (segs ++ [name]) with
            | error e2 => simp [hce] at h
            | ok r1 =>
                simp only [hce] at h
                have hset1 : setNode tcs r (segs ++ [name]) child = some r1 :=
                  ihE child r (segs ++ [name]) r1 hsz.1 hce
                    (hch (name, child) (by simp))
                rw [setNode_through tcs r segs acc hacc name child] at hset1
                rw [setChild_missing tcs acc name child
                  (hfresh (name, child) (by simp))] at hset1
                have hg1 : getNode tcs r1 segs =
                    some (.dir (acc ++ [(name, child)])) :=
                  getNode_setNode tcs r r1 segs _ hset1
                have hnodup2 : (rest.map (fun e => normSeg tcs e.1)).Nodup := by
                  simp only [List.map_cons, List.nodup_cons] at hnames
                  exact hnames.2
                have hnm : normSeg tcs name ∉
                    rest.map (fun e => normSeg tcs e.1) := by
                  simp only [List.map_cons, List.nodup_cons] at hnames
                  exact hnames.1
                have hfresh2 : ∀ e ∈ rest,
                    findChild tcs (acc ++ [(name, child)]) e.1 = none := by
                  intro e he
                  rw [findChild_append tcs acc [(name, child)] e.1
                    (hfresh e (by simp [he]))]
                  have hne2 : normSeg tcs name ≠ normSeg tcs e.1 := by
                    intro hc
                    exact hnm (hc ▸ List.mem_map_of_mem
                      (fun e => normSeg tcs e.1) he)
                  simp [findChild, hne2]
                have hih := ihS rest r1 segs r2 (acc ++ [(name, child)])
                  hsz.2 h hg1 hnodup2
                  (fun e he => hch e (by simp [he])) hfresh2
                rw [setNode_absorb tcs r r1 segs _ hset1] at hih
                rw [List.append_assoc] at hih
                simpa using hih

/-- copyEntry correctness at its own size. -/
theorem copyEntry_correct (srcCaps tgtCaps : Nat) (tcs : Bool)
    (hs : (hasCap srcCaps FileOpenReadWriteCloseCap ||
      hasCap srcCaps FileReadWriteCap) = true)
    (ht : (hasCap tgtCaps FileOpenReadWriteCloseCap ||
      hasCap tgtCaps FileReadWriteCap) = true)
    (n tgtRoot : FsNode) (segs : Segs) (r3 : FsNode)
    (h : copyEntry srcCaps tgtCaps tcs n tgtRoot segs = .ok r3)
    (hwf : TreeWF tcs n) :
    setNode tcs tgtRoot segs n = some r3 :=
  (copy_correct_fuel srcCaps tgtCaps tcs hs ht (sizeOf n)).1 n tgtRoot segs
    r3 le_rfl h hwf

theorem provCaps_eq (st : SvcState) (i : Nat) (p : MProvider)
    (h : st.providers.get? i = some p) : provCaps st i = p.capabilities := by
  unfold provCaps
  rw [h]
  rfl

theorem provRoot_eq (st : SvcState) (i : Nat) (p : MProvider)
    (h : st.providers.get? i = some p) : provRoot st i = p.root := by
  unfold provRoot
  rw [h]
  rfl

theorem provCS_eq (st : SvcState) (i : Nat) (p : MProvider)
    (h : st.providers.get? i = some p) :
    provCS st i = hasCap p.capabilities PathCaseSensitiveCap := by
  unfold provCS
  rw [provCaps_eq st i p h]

theorem setProvRoot_get_other (ps : List MProvider) (i j : Nat) (r : FsNode)
    (hij : i ≠ j) : (setProvRoot ps j r).get? i = ps.get? i := by
  induction ps generalizing i j with
  | nil => rfl
  | cons q rest ih =>
      cases j with
      | zero =>
          cases i with
          | zero => exact absurd rfl hij
          | succ i => rfl
      | succ j =>
          cases i with
          | zero => rfl
          | succ i => simpa [setProvRoot] using ih i j (by omega)

theorem setProvRoot_absorb (ps : List MProvider) (j : Nat) (r r2 : FsNode) :
    setProvRoot (setProvRoot ps j r) j r2 = setProvRoot ps j r2 := by
  induction ps generalizing j with
  | nil => rfl
  | cons q rest ih =>
      cases j with
      | zero => rfl
      | succ j => simp [setProvRoot, ih j]

/-- The shape of a successful recursive delete: it resolves the provider of
the URI, deletes through it and fires a DELETE event; nothing else
changes. -/
theorem delSvc_shape (st : SvcState) (u : MUri) (a : Bool) (st2 : SvcState)
    (h : delSvc st u a true = .ok st2) :
    ∃ i r2, withProviderIdx st u = .ok i ∧
      provDelete (provCS st i) (provRoot st i) u.segs = .ok r2 ∧
      st2 = fireEvent (setRoot st i r2) ⟨u, .DELETE, none⟩ := by
  unfold delSvc at h
  cases hw : withProviderIdx st u with
  | error e => simp [hw] at h
  | ok i =>
      simp only [hw] at h
      cases hro : throwIfReadonly st i with
      | error e => simp [hro] at h
      | ok u0 =>
          simp only [hro] at h
          by_cases htr : (a && !hasCap (provCaps st i) TrashCap) = true
          · rw [if_pos htr] at h
            simp at h
          · rw [if_neg htr] at h
            cases hex : existsSvc st u with
            | error e => simp [hex] at h
            | ok ex =>
                simp only [hex] at h
                cases ex with
                | false => simp at h
                | true =>
                    simp only [Bool.not_true, Bool.false_eq_true,
                      if_false] at h
                    rw [if_pos trivial] at h
                    cases hpd : provDelete (provCS st i) (provRoot st i)
                        u.segs with
                    | error e => simp [hpd] at h
                    | ok r2 =>
                        simp only [hpd, Except.ok.injEq] at h
                        exact ⟨i, r2, rfl, hpd, h.symm⟩

/-- The prelude of doMoveCopy (target delete plus parent mkdirp) only
replaces the store of the target provider. -/
theorem mcPrelude_providers (st : SvcState) (j : Nat) (target : MUri)
    (p : MProvider) (ex isSame ov : Bool) (st2 : SvcState)
    (hlt : provLookup st.providers target.scheme = some (j, p))
    (h : mcPrelude st j target ex isSame ov = .ok st2) :
    ∃ r, st2.providers = setProvRoot st.providers j r := by
  unfold mcPrelude at h
  cases hc : (ex && !isSame && ov) with
  | false =>
      simp only [hc, Bool.false_eq_true, if_false] at h
      cases hmk : mkdirpStore (provCS st j) (provRoot st j)
          target.parent.segs with
      | error e => simp [hmk] at h
      | ok rmk =>
          simp only [hmk, Except.ok.injEq] at h
          exact ⟨rmk, by rw [← h]; rfl⟩
  | true =>
      simp only [hc, if_true] at h
      cases hd : delSvc st target false true with
      | error e => simp [hd] at h
      | ok st1 =>
          simp only [hd] at h
          obtain ⟨idx, r2, hw, hpd, hsh⟩ := delSvc_shape st target false st1 hd
          have hidx : j = idx := by
            unfold withProviderIdx at hw
            rw [hlt] at hw
            simpa using hw
          subst hidx
          cases hmk : mkdirpStore (provCS st1 j) (provRoot st1 j)
              target.parent.segs with
          | error e => simp [hmk] at h
          | ok rmk =>
              simp only [hmk, Except.ok.injEq] at h
              refine ⟨rmk, ?_⟩
              rw [← h, hsh]
              show setProvRoot (setProvRoot st.providers j r2) j rmk =
                setProvRoot st.providers j rmk
              exact setProvRoot_absorb st.providers j r2 rmk

/-- The shape of a successful move at the service level. -/
theorem moveSvc_shape (st : SvcState) (source target : MUri) (ov : Bool)
    (stat : RStat) (st2 : SvcState)
    (h : moveSvc st source target ov = .ok (stat, st2)) :
    ∃ i j pr, withRWProviderIdx st source = .ok i ∧
      withRWProviderIdx st target = .ok j ∧
      doMoveCopy st i source j target .move ov = .ok pr ∧
      resolveSvc pr.2 target = .ok stat ∧
      st2 = fireEvent pr.2 ⟨source,
        (if pr.1 = MCMode.move then .MOVE else .COPY), some stat⟩ := by
  unfold moveSvc at h
  cases hwS : withRWProviderIdx st source with
  | error e => simp [hwS] at h
  | ok i =>
      simp only [hwS] at h
      cases hroS : throwIfReadonly st i with
      | error e => simp [hroS] at h
      | ok uS =>
          simp only [hroS] at h
          cases hwT : withRWProviderIdx st target with
          | error e => simp [hwT] at h
          | ok j =>
              simp only [hwT] at h
              cases hroT : throwIfReadonly st j with
              | error e => simp [hroT] at h
              | ok uT =>
                  simp only [hroT] at h
                  cases hd : doMoveCopy st i source j target .move ov with
                  | error e => simp [hd] at h
                  | ok pr =>
                      simp only [hd] at h
                      cases hr : resolveSvc pr.2 target with
                      | error e => simp [hr] at h
                      | ok stat0 =>
                          simp only [hr, Except.ok.injEq,
                            Prod.mk.injEq] at h
                          obtain ⟨h1, h2⟩ := h
                          subst h1
                          exact ⟨i, j, pr, rfl, rfl, hd, hr, h2.symm⟩

/-- The shape of a successful cross-provider move inside doMoveCopy: one
recursion into copy mode followed by a recursive delete of the source,
returning copy. -/
theorem doMoveCopy_move_shape (st : SvcState) (i : Nat) (source : MUri)
    (j : Nat) (target : MUri) (ov : Bool) (pr : MCMode × SvcState)
    (hij : i ≠ j) (hne : source ≠ target)
    (h : doMoveCopy st i source j target .move ov = .ok pr) :
    ∃ ex isSame stA prc st4,
      doValidateMoveCopy st i source j target .move ov = .ok (ex, isSame) ∧
      mcPrelude st j target ex isSame ov = .ok stA ∧
      doMoveCopyC stA i source j target ov = .ok prc ∧
      delSvc prc.2 source false true = .ok st4 ∧
      pr = (.copy, st4) := by
  rw [doMoveCopy] at h
  rw [if_neg hne] at h
  cases hval : doValidateMoveCopy st i source j target .move ov with
  | error e => simp [hval] at h
  | ok es =>
      obtain ⟨ex, isSame⟩ := es
      simp only [hval] at h
      cases hpre : mcPrelude st j target ex isSame ov with
      | error e => simp [hpre] at h
      | ok stA =>
          simp only [hpre] at h
          rw [if_neg hij] at h
          cases hcop : doMoveCopyC stA i source j target ov with
          | error e => simp [hcop] at h
          | ok prc =>
              simp only [hcop] at h
              cases hdel : delSvc prc.2 source false true with
              | error e => simp [hdel] at h
              | ok st4 =>
                  simp only [hdel, Except.ok.injEq] at h
                  exact ⟨ex, isSame, stA, prc, st4, rfl, hpre, hcop, hdel,
                    h.symm⟩

/-- The shape of a successful copy across distinct providers: after
validation and the prelude, the resolved source entry is copied by the
manual traversal into the target provider store. -/
theorem doMoveCopyC_shape (st : SvcState) (i : Nat) (source : MUri)
    (j : Nat) (target : MUri) (ov : Bool) (prc : MCMode × SvcState)
    (hij : i ≠ j) (hne : source ≠ target)
    (h : doMoveCopyC st i source j target ov = .ok prc) :
    ∃ ex isSame stB n0 rC,
      doValidateMoveCopy st i source j target .copy ov = .ok (ex, isSame) ∧
      mcPrelude st j target ex isSame ov = .ok stB ∧
      getNode (provCS stB i) (provRoot stB i) source.segs = some n0 ∧
      copyEntry (provCaps stB i) (provCaps stB j) (provCS stB j) n0
        (provRoot stB j) target.segs = .ok rC ∧
      prc = (.copy, setRoot stB j rC) := by
  rw [doMoveCopyC] at h
  rw [if_neg hne] at h
  cases hval : doValidateMoveCopy st i source j target .copy ov with
  | error e => simp [hval] at h
  | ok es =>
      obtain ⟨ex, isSame⟩ := es
      simp only [hval] at h
      cases hpre : mcPrelude st j target ex isSame ov with
      | error e => simp [hpre] at h
      | ok stB =>
          simp only [hpre] at h
          rw [if_neg (by simp [hij])] at h
          cases hg : getNode (provCS stB i) (provRoot stB i) source.segs with
          | none => simp [hg] at h
          | some n0 =>
              simp only [hg] at h
              cases hce : copyEntry (provCaps stB i) (provCaps stB j)
                  (provCS stB j) n0 (provRoot stB j) target.segs with
              | error e => simp [hce] at h
              | ok rC =>
                  simp only [hce, Except.ok.injEq] at h
                  exact ⟨ex, isSame, stB, n0, rC, rfl, hpre, hg, hce, h.symm⟩

/-- Claim C3: a move whose source and target resolve to different
providers is performed as a recursive copy of the source into the target
provider followed by a recursive delete of the source, and doMoveCopy
returns copy, so the emitted operation event is COPY rather than MOVE;
after the move succeeds the source no longer exists and the target holds
the content the source had at call time. -/
theorem claim3_cross_provider_move
    (st : SvcState) (source target : MUri) (i j : Nat) (pS pT : MProvider)
    (n : FsNode) (ov : Bool) (stat : RStat) (st2 : SvcState)
    (hls : provLookup st.providers source.scheme = some (i, pS))
    (hlt : provLookup st.providers target.scheme = some (j, pT))
    (hij : i ≠ j)
    (hsrc : getNode (hasCap pS.capabilities PathCaseSensitiveCap)
      pS.root source.segs = some n)
    (hwfS : TreeWF (hasCap pS.capabilities PathCaseSensitiveCap) pS.root)
    (hwfN : TreeWF (hasCap pT.capabilities PathCaseSensitiveCap) n)
    (hsCaps : (hasCap pS.capabilities FileOpenReadWriteCloseCap ||
      hasCap pS.capabilities FileReadWriteCap) = true)
    (htCaps : (hasCap pT.capabilities FileOpenReadWriteCloseCap ||
      hasCap pT.capabilities FileReadWriteCap) = true)
    (hmove : moveSvc st source target ov = .ok (stat, st2)) :
    (∃ st3, doMoveCopy st i source j target .move ov = .ok (.copy, st3)) ∧
      existsSvc st2 source = .ok false ∧
      getNode (hasCap pT.capabilities PathCaseSensitiveCap)
        (provRoot st2 j) target.segs = some n ∧
      st2.events.getLast? = some ⟨source, .COPY, some stat⟩ := by
  obtain ⟨hgetS, hschS⟩ := provLookup_get st.providers source.scheme i pS hls
  obtain ⟨hgetT, hschT⟩ := provLookup_get st.providers target.scheme j pT hlt
  have hne : source ≠ target := by
    intro hc
    rw [hc, hlt] at hls
    simp only [Option.some.injEq, Prod.mk.injEq] at hls
    exact hij hls.1.symm
  have hwpS : withRWProviderIdx st source = .ok i := by
    simp [withRWProviderIdx, withProviderIdx, hls,
      provCaps_eq st i pS hgetS, hsCaps]
  have hwpT : withRWProviderIdx st target = .ok j := by
    simp [withRWProviderIdx, withProviderIdx, hlt,
      provCaps_eq st j pT hgetT, htCaps]
  obtain ⟨i0, j0, pr, hwpS0, hwpT0, hdmc, hres, hst2⟩ :=
    moveSvc_shape st source target ov stat st2 hmove
  have hii : i = i0 := by
    rw [hwpS] at hwpS0
    simpa using hwpS0
  subst hii
  have hjj : j = j0 := by
    rw [hwpT] at hwpT0
    simpa using hwpT0
  subst hjj
  obtain ⟨ex, isSame, stA, prc, st4, hval, hpre, hcop, hdelS, hpr⟩ :=
    doMoveCopy_move_shape st i source j target ov pr hij hne hdmc
  obtain ⟨ex2, isSame2, stB, n0, rC, hval2, hpre2, hgB, hcpE, hprc⟩ :=
    doMoveCopyC_shape stA i source j target ov prc hij hne hcop
  obtain ⟨rj, hstAp⟩ :=
    mcPrelude_providers st j target pT ex isSame ov stA hlt hpre
  have hAlt : provLookup stA.providers target.scheme =
      some (j, ⟨pT.scheme, pT.capabilities, rj⟩) := by
    rw [hstAp]
    have hx := provLookup_setProvRoot st.providers target.scheme j j pT rj hlt
    simpa using hx
  obtain ⟨rj2, hstBpA⟩ :=
    mcPrelude_providers stA j target ⟨pT.scheme, pT.capabilities, rj⟩
      ex2 isSame2 ov stB hAlt hpre2
  have hstBp : stB.providers = setProvRoot st.providers j rj2 := by
    rw [hstBpA, hstAp, setProvRoot_absorb]
  have hBgetS : stB.providers.get? i = some pS := by
    rw [hstBp, setProvRoot_get_other st.providers i j rj2 hij]
    exact hgetS
  have hBgetT : stB.providers.get? j =
      some ⟨pT.scheme, pT.capabilities, rj2⟩ := by
    rw [hstBp]
    exact setProvRoot_get_self st.providers j pT rj2 hgetT
  have hn0 : n0 = n := by
    rw [provCS_eq stB i pS hBgetS, provRoot_eq stB i pS hBgetS,
      hsrc] at hgB
    simpa using hgB.symm
  subst hn0
  simp only [provCaps_eq stB i pS hBgetS,
    provCaps_eq stB j ⟨pT.scheme, pT.capabilities, rj2⟩ hBgetT,
    provCS_eq stB j ⟨pT.scheme, pT.capabilities, rj2⟩ hBgetT,
    provRoot_eq stB j ⟨pT.scheme, pT.capabilities, rj2⟩ hBgetT] at hcpE
  have hsetC := copyEntry_correct pS.capabilities pT.capabilities
    (hasCap pT.capabilities PathCaseSensitiveCap) hsCaps htCaps n0 rj2
    target.segs rC hcpE hwfN
  have hgotC : getNode (hasCap pT.capabilities PathCaseSensitiveCap) rC
      target.segs = some n0 :=
    getNode_setNode (hasCap pT.capabilities PathCaseSensitiveCap) rj2 rC
      target.segs n0 hsetC
  subst hprc
  obtain ⟨i2, rD, hw2, hpd2, hst4⟩ :=
    delSvc_shape (setRoot stB j rC) source false st4 hdelS
  have hCp : (setRoot stB j rC).providers =
      setProvRoot st.providers j rC := by
    show setProvRoot stB.providers j rC = _
    rw [hstBp, setProvRoot_absorb]
  have hCls : provLookup (setRoot stB j rC).providers source.scheme =
      some (i, pS) := by
    rw [hCp]
    have hx := provLookup_setProvRoot st.providers source.scheme j i pS rC hls
    rw [if_neg hij] at hx
    exact hx
  have hCgetS : (setRoot stB j rC).providers.get? i = some pS := by
    rw [hCp, setProvRoot_get_other st.providers i j rC hij]
    exact hgetS
  have hi2 : i = i2 := by
    unfold withProviderIdx at hw2
    rw [hCls] at hw2
    simpa using hw2
  subst hi2
  rw [provCS_eq (setRoot stB j rC) i pS hCgetS,
    provRoot_eq (setRoot stB j rC) i pS hCgetS] at hpd2
  have hdd : deleteNode (hasCap pS.capabilities PathCaseSensitiveCap)
      pS.root source.segs = some rD := by
    unfold provDelete at hpd2
    cases hd : deleteNode (hasCap pS.capabilities PathCaseSensitiveCap)
        pS.root source.segs with
    | none => simp [hd] at hpd2
    | some x =>
        simp only [hd, Except.ok.injEq] at hpd2
        rw [hpd2]
  have hgone : getNode (hasCap pS.capabilities PathCaseSensitiveCap) rD
      source.segs = none :=
    getNode_deleteNode (hasCap pS.capabilities PathCaseSensitiveCap)
      pS.root rD source.segs hwfS hdd
  subst hpr
  have hst2f : st2 = fireEvent st4 ⟨source, .COPY, some stat⟩ := by
    rw [hst2]
    rfl
  have hst2p : st2.providers =
      setProvRoot (setProvRoot st.providers j rC) i rD := by
    rw [hst2f, hst4]
    show setProvRoot (setRoot stB j rC).providers i rD = _
    rw [hCp]
  have h2ls : provLookup st2.providers source.scheme =
      some (i, ⟨pS.scheme, pS.capabilities, rD⟩) := by
    rw [hst2p]
    have h1 := provLookup_setProvRoot st.providers source.scheme j i pS rC hls
    rw [if_neg hij] at h1
    have h2 := provLookup_setProvRoot (setProvRoot st.providers j rC)
      source.scheme i i pS rD h1
    rw [if_pos rfl] at h2
    exact h2
  have h2get : st2.providers.get? i =
      some ⟨pS.scheme, pS.capabilities, rD⟩ :=
    (provLookup_get st2.providers source.scheme i _ h2ls).1
  have h2getT : st2.providers.get? j =
      some ⟨pT.scheme, pT.capabilities, rC⟩ := by
    rw [hst2p, setProvRoot_get_other (setProvRoot st.providers j rC) j i
      rD (Ne.symm hij)]
    exact setProvRoot_get_self st.providers j pT rC hgetT
  refine And.intro (Exists.intro st4 hdmc) (And.intro ?_ (And.intro ?_ ?_))
  · unfold existsSvc withProviderIdx
    simp only [h2ls]
    simp only [provCS_eq st2 i ⟨pS.scheme, pS.capabilities, rD⟩ h2get,
      provRoot_eq st2 i ⟨pS.scheme, pS.capabilities, rD⟩ h2get]
    unfold provStat
    rw [hgone]
  · simp only [provRoot_eq st2 j ⟨pT.scheme, pT.capabilities, rC⟩ h2getT]
    exact hgotC
  · rw [hst2f]
    show (st4.events ++ [(⟨source, .COPY, some stat⟩ : OpEvent)]).getLast? = _
    rw [List.getLast?_concat]

/-- Concrete run of claim 3: moving file "f" from provider "a" to provider
"b" (both plain read/write) copies the file into "b", recursively deletes
it from "a", fires DELETE then COPY, and doMoveCopy reports copy. -/
theorem claim3_witness :
    (∃ st3, doMoveCopy
        ⟨[⟨"a", 2, .dir [("f", .file [7])]⟩, ⟨"b", 2, .dir []⟩], []⟩ 0
        ⟨"a", ["f"]⟩ 1 ⟨"b", ["f"]⟩ .move false = .ok (.copy, st3)) ∧
      existsSvc ⟨[⟨"a", 2, .dir []⟩, ⟨"b", 2, .dir [("f", .file [7])]⟩],
          [⟨⟨"a", ["f"]⟩, .DELETE, none⟩, ⟨⟨"a", ["f"]⟩, .COPY,
            some ⟨⟨"b", ["f"]⟩, true, false, 0, 0, 1, "0-1", none⟩⟩]⟩
        ⟨"a", ["f"]⟩ = .ok false ∧
      getNode (hasCap 2 PathCaseSensitiveCap)
        (provRoot ⟨[⟨"a", 2, .dir []⟩, ⟨"b", 2, .dir [("f", .file [7])]⟩],
          [⟨⟨"a", ["f"]⟩, .DELETE, none⟩, ⟨⟨"a", ["f"]⟩, .COPY,
            some ⟨⟨"b", ["f"]⟩, true, false, 0, 0, 1, "0-1", none⟩⟩]⟩ 1)
        ["f"] = some (.file [7]) ∧
      (SvcState.events ⟨[⟨"a", 2, .dir []⟩,
          ⟨"b", 2, .dir [("f", .file [7])]⟩],
          [⟨⟨"a", ["f"]⟩, .DELETE, none⟩, ⟨⟨"a", ["f"]⟩, .COPY,
            some ⟨⟨"b", ["f"]⟩, true, false, 0, 0, 1, "0-1", none⟩⟩]⟩).getLast?
        = some ⟨⟨"a", ["f"]⟩, .COPY,
            some ⟨⟨"b", ["f"]⟩, true, false, 0, 0, 1, "0-1", none⟩⟩ :=
  claim3_cross_provider_move
    ⟨[⟨"a", 2, .dir [("f", .file [7])]⟩, ⟨"b", 2, .dir []⟩], []⟩
    ⟨"a", ["f"]⟩ ⟨"b", ["f"]⟩ 0 1
    ⟨"a", 2, .dir [("f", .file [7])]⟩ ⟨"b", 2, .dir []⟩
    (.file [7]) false
    ⟨⟨"b", ["f"]⟩, true, false, 0, 0, 1, "0-1", none⟩
    ⟨[⟨"a", 2, .dir []⟩, ⟨"b", 2, .dir [("f", .file [7])]⟩],
      [⟨⟨"a", ["f"]⟩, .DELETE, none⟩, ⟨⟨"a", ["f"]⟩, .COPY,
        some ⟨⟨"b", ["f"]⟩, true, false, 0, 0, 1, "0-1", none⟩⟩]⟩
    rfl rfl (by decide) rfl
    (by
      refine TreeWF.dir _ (by simp) ?_
      intro e he
      simp only [List.mem_singleton] at he
      subst he
      exact TreeWF.file _)
    (TreeWF.file _) (by decide) (by decide) rfl

/-! ## Claim C5: watch reference counting

FileService.watch and doWatch (lines 1206-1251): watch returns a disposer
synchronously while the provider watch is created asynchronously by
doWatch, which keeps one activeWatchers entry per watch key with a usage
counter. The machine below tracks one key: `count` is the activeWatchers
entry, `opens` counts provider.watch invocations, `closes` counts
disposals of the underlying watch, `thenRun i` says caller i's
watchDisposable has been replaced by the doWatch disposer, and
`disposed i` says caller i ran the disposer returned by watch (so
watchDisposed is set for that caller before its then-callback ran). -/

structure WatchState where
  count : Option Nat
  opens : Nat
  closes : Nat
  thenRun : Nat → Bool
  disposed : Nat → Bool

/-- The three scheduler events of one watch call: the synchronous part of
watch, the resolution of doWatch together with its then-callback, and the
caller running the returned disposer. -/
inductive WAction where
  | openW (i : Nat)
  | thenW (i : Nat)
  | disposeW (i : Nat)

/-- One step: openW touches no shared state; thenW performs doWatch
(get-or-create the watcher, invoking provider.watch only when the key is
absent, then count += 1) and the then-callback (dispose the fresh doWatch
disposer immediately when the caller already disposed, else hand it to the
caller); disposeW either unrefs through the doWatch disposer (closing and
deleting the entry at zero) or, before the then-callback, merely sets
watchDisposed. -/
def wstep (s : WatchState) : WAction → WatchState
  | .openW _ => s
  | .thenW i =>
      let opens2 := match s.count with
        | none => s.opens + 1
        | some _ => s.opens
      let count2 := match s.count with
        | none => 1
        | some c => c + 1
      if s.disposed i then
        if count2 = 1 then
          ⟨none, opens2, s.closes + 1, s.thenRun, s.disposed⟩
        else
          ⟨some (count2 - 1), opens2, s.closes, s.thenRun, s.disposed⟩
      else
        ⟨some count2, opens2, s.closes,
          fun k => if k = i then true else s.thenRun k, s.disposed⟩
  | .disposeW i =>
      if s.thenRun i then
        match s.count with
        | some c =>
            if c = 1 then
              ⟨none, s.opens, s.closes + 1, s.thenRun,
                fun k => if k = i then true else s.disposed k⟩
            else
              ⟨some (c - 1), s.opens, s.closes, s.thenRun,
                fun k => if k = i then true else s.disposed k⟩
        | none =>
            ⟨none, s.opens, s.closes, s.thenRun,
              fun k => if k = i then true else s.disposed k⟩
      else
        ⟨s.count, s.opens, s.closes, s.thenRun,
          fun k => if k = i then true else s.disposed k⟩

/-- Run a trace of watch events. -/
def runW (s : WatchState) (t : List WAction) : WatchState := t.foldl wstep s

theorem runW_append (s : WatchState) (t1 t2 : List WAction) :
    runW s (t1 ++ t2) = runW (runW s t1) t2 := by
  simp [runW, List.foldl_append]

theorem runW_opens (l : List Nat) (s : WatchState) :
    runW s (l.map WAction.openW) = s := by
  induction l generalizing s with
  | nil => rfl
  | cons a rest ih => exact ih s

/-- Resolving the pending doWatch calls of undisposed callers only
increments the usage counter: no provider.watch beyond the existing entry,
no close. -/
theorem runW_thens (l : List Nat) (s : WatchState) (c : Nat)
    (hc : s.count = some c) (hd : ∀ i ∈ l, s.disposed i = false) :
    ∃ s2, runW s (l.map WAction.thenW) = s2 ∧
      s2.count = some (c + l.length) ∧ s2.opens = s.opens ∧
      s2.closes = s.closes ∧ s2.disposed = s.disposed ∧
      ∀ k, s2.thenRun k = (l.contains k || s.thenRun k) := by
  induction l generalizing s c with
  | nil =>
      exact ⟨s, rfl, by rw [hc]; simp, rfl, rfl, rfl, fun k => by
        simp [List.contains]⟩
  | cons i rest ih =>
      have hstep : wstep s (.thenW i) =
          ⟨some (c + 1), s.opens, s.closes,
            fun k => if k = i then true else s.thenRun k, s.disposed⟩ := by
        simp [wstep, hc, hd i (by simp)]
      have hrun : runW s ((i :: rest).map WAction.thenW) =
          runW ⟨some (c + 1), s.opens, s.closes,
            fun k => if k = i then true else s.thenRun k, s.disposed⟩
            (rest.map WAction.thenW) := by
        simp only [List.map_cons]
        show runW (wstep s (.thenW i)) (rest.map WAction.thenW) = _
        rw [hstep]
      obtain ⟨s2, h1, h2, h3, h4, h5, h6⟩ := ih
        ⟨some (c + 1), s.opens, s.closes,
          fun k => if k = i then true else s.thenRun k, s.disposed⟩
        (c + 1) rfl (fun i2 hi2 => hd i2 (by simp [hi2]))
      refine ⟨s2, by rw [hrun, h1],
        by rw [h2]; congr 1; simp only [List.length_cons]; omega,
        h3, h4, h5, fun k => ?_⟩
      rw [h6 k]
      by_cases hk : k = i
      · subst hk
        simp
      · simp [List.contains_cons, hk]

/-- Disposing every caller of an entry whose count equals the number of
callers unrefs down to zero, closing the underlying watch exactly once and
deleting the entry. -/
theorem runW_disposes (l : List Nat) (s : WatchState)
    (hc : s.count = some l.length) (hl : l ≠ [])
    (ht : ∀ i ∈ l, s.thenRun i = true) :
    (runW s (l.map WAction.disposeW)).count = none ∧
    (runW s (l.map WAction.disposeW)).opens = s.opens ∧
    (runW s (l.map WAction.disposeW)).closes = s.closes + 1 := by
  induction l generalizing s with
  | nil => exact absurd rfl hl
  | cons i rest ih =>
      cases rest with
      | nil =>
          have hstep : wstep s (.disposeW i) =
              ⟨none, s.opens, s.closes + 1, s.thenRun,
                fun k => if k = i then true else s.disposed k⟩ := by
            simp [wstep, ht i (by simp), hc]
          have hfin : runW s ([i].map WAction.disposeW) =
              ⟨none, s.opens, s.closes + 1, s.thenRun,
                fun k => if k = i then true else s.disposed k⟩ := by
            show runW (wstep s (.disposeW i)) [] = _
            rw [hstep]
            rfl
          rw [hfin]
          exact ⟨rfl, rfl, rfl⟩
      | cons j rest2 =>
          have hne1 : (j :: rest2).length + 1 ≠ 1 := by simp
          have hstep : wstep s (.disposeW i) =
              ⟨some ((j :: rest2).length), s.opens, s.closes, s.thenRun,
                fun k => if k = i then true else s.disposed k⟩ := by
            simp only [wstep, ht i (by simp), if_true, hc,
              List.length_cons, if_neg hne1]
            rfl
          have hrun : runW s ((i :: j :: rest2).map WAction.disposeW) =
              runW ⟨some ((j :: rest2).length), s.opens, s.closes,
                s.thenRun, fun k => if k = i then true else s.disposed k⟩
                ((j :: rest2).map WAction.disposeW) := by
            simp only [List.map_cons]
            show runW (wstep s (.disposeW i)) _ = _
            rw [hstep]
          rw [hrun]
          exact ih ⟨some ((j :: rest2).length), s.opens, s.closes,
            s.thenRun, fun k => if k = i then true else s.disposed k⟩
            rfl (by simp) (fun i2 hi2 => ht i2 (by simp [hi2]))

/-- Claim C5: for a list of overlapping watch calls on one key (all
callers start and their doWatch resolves before any disposal) followed by
one disposal per caller, provider.watch runs exactly once and the
underlying watch is disposed exactly once, when the count reaches zero;
and a caller that disposes before its provider watch exists opens and
closes nothing at disposal time, but the watch created by its late doWatch
is disposed immediately upon creation. -/
theorem claim5_watch_refcount (l : List Nat) (hl : l ≠ []) (i : Nat) :
    ((runW ⟨none, 0, 0, fun _ => false, fun _ => false⟩
        (l.map WAction.openW ++ l.map WAction.thenW ++
          l.map WAction.disposeW)).opens = 1 ∧
      (runW ⟨none, 0, 0, fun _ => false, fun _ => false⟩
        (l.map WAction.openW ++ l.map WAction.thenW ++
          l.map WAction.disposeW)).closes = 1) ∧
    ((runW ⟨none, 0, 0, fun _ => false, fun _ => false⟩
        [WAction.openW i, WAction.disposeW i]).opens = 0 ∧
      (runW ⟨none, 0, 0, fun _ => false, fun _ => false⟩
        [WAction.openW i, WAction.disposeW i]).closes = 0 ∧
      (runW ⟨none, 0, 0, fun _ => false, fun _ => false⟩
        [WAction.openW i, WAction.disposeW i, WAction.thenW i]).opens = 1 ∧
      (runW ⟨none, 0, 0, fun _ => false, fun _ => false⟩
        [WAction.openW i, WAction.disposeW i, WAction.thenW i]).closes
        = 1 ∧
      (runW ⟨none, 0, 0, fun _ => false, fun _ => false⟩
        [WAction.openW i, WAction.disposeW i, WAction.thenW i]).count
        = none) := by
  constructor
  · cases l with
    | nil => exact absurd rfl hl
    | cons i0 rest =>
        have hstep1 : wstep ⟨none, 0, 0, fun _ => false, fun _ => false⟩
            (.thenW i0) =
            ⟨some 1, 1, 0, fun k => if k = i0 then true else false,
              fun _ => false⟩ := by
          simp [wstep]
        have hrunO : runW ⟨none, 0, 0, fun _ => false, fun _ => false⟩
            ((i0 :: rest).map WAction.openW) =
            ⟨none, 0, 0, fun _ => false, fun _ => false⟩ :=
          runW_opens (i0 :: rest) _
        obtain ⟨s2, h1, h2, h3, h4, h5, h6⟩ := runW_thens rest
          ⟨some 1, 1, 0, fun k => if k = i0 then true else false,
            fun _ => false⟩ 1 rfl (fun i2 _ => rfl)
        have hrunT : runW ⟨none, 0, 0, fun _ => false, fun _ => false⟩
            ((i0 :: rest).map WAction.thenW) = s2 := by
          simp only [List.map_cons]
          show runW (wstep ⟨none, 0, 0, fun _ => false, fun _ => false⟩
            (.thenW i0)) (rest.map WAction.thenW) = s2
          rw [hstep1, h1]
        have hcnt : s2.count = some ((i0 :: rest).length) := by
          rw [h2]
          congr 1
          simp [Nat.add_comm]
        have hthen : ∀ i2 ∈ i0 :: rest, s2.thenRun i2 = true := by
          intro i2 hi2
          rw [h6 i2]
          rcases List.mem_cons.mp hi2 with h | h
          · subst h
            simp
          · have : rest.contains i2 = true := List.elem_eq_true_of_mem h
            rw [this]
            rfl
        obtain ⟨hdc, hdo, hdcl⟩ := runW_disposes (i0 :: rest) s2 hcnt
          (by simp) hthen
        rw [runW_append, runW_append, hrunO, hrunT]
        constructor
        · rw [hdo, h3]
        · rw [hdcl, h4]
  · refine ⟨rfl, rfl, ?_, ?_, ?_⟩ <;>
      simp [runW, wstep]

/-- Concrete run of claim 5: two overlapping watchers then two disposals
open and close the underlying watch once; caller 5 disposing before its
doWatch resolves closes the late watch at creation. -/
theorem claim5_witness :
    ([0, 1] : List Nat) ≠ [] ∧
    (((runW ⟨none, 0, 0, fun _ => false, fun _ => false⟩
        (([0, 1] : List Nat).map WAction.openW ++
          ([0, 1] : List Nat).map WAction.thenW ++
          ([0, 1] : List Nat).map WAction.disposeW)).opens = 1 ∧
      (runW ⟨none, 0, 0, fun _ => false, fun _ => false⟩
        (([0, 1] : List Nat).map WAction.openW ++
          ([0, 1] : List Nat).map WAction.thenW ++
          ([0, 1] : List Nat).map WAction.disposeW)).closes = 1) ∧
    ((runW ⟨none, 0, 0, fun _ => false, fun _ => false⟩
        [WAction.openW 5, WAction.disposeW 5]).opens = 0 ∧
      (runW ⟨none, 0, 0, fun _ => false, fun _ => false⟩
        [WAction.openW 5, WAction.disposeW 5]).closes = 0 ∧
      (runW ⟨none, 0, 0, fun _ => false, fun _ => false⟩
        [WAction.openW 5, WAction.disposeW 5, WAction.thenW 5]).opens
        = 1 ∧
      (runW ⟨none, 0, 0, fun _ => false, fun _ => false⟩
        [WAction.openW 5, WAction.disposeW 5, WAction.thenW 5]).closes
        = 1 ∧
      (runW ⟨none, 0, 0, fun _ => false, fun _ => false⟩
        [WAction.openW 5, WAction.disposeW 5, WAction.thenW 5]).count
        = none)) :=
  ⟨by decide, claim5_watch_refcount [0, 1] (by decide) 5⟩

end Theia
